import Mathlib

/-!
# A shallow embedding of `src/audio.cpp` (four-channel sample mixer)

The C++ globals `loadedWavs` and `channels` become the fields of `State`.
Machine integers are `Nat`/`Int` with the wrap-around written out where an
operation can leave the type's range.  An operation whose behaviour the C++
standard leaves undefined because it touches memory that is not there (an index
outside a buffer or outside a vector, a null `wav` pointer) returns `none`.
-/

namespace Audio

/-! ## Data model -/

/-- Source constant `static const int NUM_CHANNELS = 4;`. -/
abbrev NUM_CHANNELS : Nat := 4

/-- Source `struct Wav`: of `spec` only `spec.freq` is read by the code; `sampleData` is the
buffer the decoder allocated, seen as `int16_t` values; `numSamples` is the `uint32_t`
count the code keeps (it can be smaller than the buffer after trimming). -/
structure Wav where
  freq : Int
  sampleData : List Int
  numSamples : Nat
deriving DecidableEq, Repr

/-- Source `struct Channel`: `wav` is the nullable pointer into `loadedWavs`, held here as the
 (immutable) value it points to; `end` is spelled `end_`. -/
structure Channel where
  wav : Option Wav
  current : Nat
  loop : Bool
  playing : Bool
  start : Nat
  end_ : Nat
  loop_start : Nat
  loop_end : Nat
deriving DecidableEq, Repr

/-- The value of an element of the global `channels` array at program start: the
default member initialisers on zero-initialised static storage. -/
def Channel.init : Channel :=
  { wav := none, current := 0, loop := false, playing := false,
    start := 0, end_ := 0, loop_start := 0, loop_end := 0 }

/-- The globals `loadedWavs` and `channels`. -/
structure State where
  loadedWavs : List Wav
  channels : Fin NUM_CHANNELS → Channel

/-- The state at program start. -/
def State.init : State :=
  { loadedWavs := [], channels := fun _ => Channel.init }

/-! ## Machine integers -/

/-- The value of a conversion to `int16_t` (two's complement wrap). -/
def toInt16 (x : Int) : Int := (x + 32768) % 65536 - 32768

/-- The value of a conversion to `int32_t` (two's complement wrap). -/
def toInt32 (x : Int) : Int := (x + 2147483648) % 4294967296 - 2147483648

/-- The constant `INT16_MIN` of `<stdint.h>`. -/
def INT16_MIN : Int := -32768

/-- The constant `INT16_MAX` of `<stdint.h>`. -/
def INT16_MAX : Int := 32767

/-- Increment of a `uint32_t`. -/
def incr32 (n : Nat) : Nat := (n + 1) % 4294967296

/-! ## The channel cursor -/

/-- Expression `c.wav->sampleData[c.current++]`: the read and the post-increment; `none` when the
pointer is null or the index is outside the buffer. -/
def readAndAdvance (c : Channel) : Option (Int × Channel) :=
  match c.wav with
  | none => none
  | some w =>
    match w.sampleData[c.current]? with
    | none => none
    | some s => some (s, { c with current := incr32 c.current })

/-- Source function `getNextSample(Channel& c)`: the returned sample and the channel after the call. -/
def getNextSample (c : Channel) : Option (Int × Channel) :=
  if !c.playing then
    some (0, c)
  else if c.current ≥ (if c.loop then c.loop_end else c.end_) then
    if c.loop then
      readAndAdvance { c with current := c.loop_start }
    else
      some (0, { c with playing := false })
  else
    readAndAdvance c

/-- The samples returned by `k` successive calls of `getNextSample` on one channel, and the
channel after the last call. -/
def getNextSamples : Nat → Channel → Option (List Int × Channel)
  | 0, c => some ([], c)
  | k + 1, c =>
    match getNextSample c with
    | none => none
    | some (s, c1) =>
      match getNextSamples k c1 with
      | none => none
      | some (ss, c2) => some (s :: ss, c2)

/-! ## Control operations -/

/-- A channel argument `chan` as an index of `channels`, when it is one. -/
def chanIndex (chan : Int) : Option (Fin NUM_CHANNELS) :=
  if h : 0 ≤ chan ∧ chan < NUM_CHANNELS then
    some ⟨chan.toNat, by omega⟩
  else none

/-- Expression `loadedWavs[id]`, when `id` is an index of the vector. -/
def wavAt (st : State) (id : Int) : Option Wav :=
  if 0 ≤ id then st.loadedWavs[id.toNat]? else none

/-- Statement `channels[chan] = ci;`. -/
def setChannel (st : State) (i : Fin NUM_CHANNELS) (ci : Channel) : State :=
  { st with channels := Function.update st.channels i ci }

/-- Source function `AUDIO_Play(int id, int chan, bool loop)`; `none` when `id` or `chan`
is out of range. -/
def AUDIO_Play (st : State) (id chan : Int) (loop : Bool) : Option State :=
  match wavAt st id, chanIndex chan with
  | some w, some i =>
    let start := 0
    let end_ := w.numSamples
    some (setChannel st i
      { wav := some w, loop := loop, playing := true,
        start := start, end_ := end_, loop_start := start, loop_end := end_,
        current := start })
  | _, _ => none

/-- Source function `AUDIO_Stop(int chan)`; `none` when `chan` is out of range. -/
def AUDIO_Stop (st : State) (chan : Int) : Option State :=
  match chanIndex chan with
  | some i => some (setChannel st i { st.channels i with playing := false })
  | none => none

/-- Source function `AUDIO_StopLoop(int chan)`; `none` when `chan` is out of range. -/
def AUDIO_StopLoop (st : State) (chan : Int) : Option State :=
  match chanIndex chan with
  | some i => some (setChannel st i { st.channels i with loop := false })
  | none => none

/-- Source function `AUDIO_isPlaying(int chan)`; `none` when `chan` is out of range. -/
def AUDIO_isPlaying (st : State) (chan : Int) : Option Bool :=
  match chanIndex chan with
  | some i => some (st.channels i).playing
  | none => none

/-- The upper bound the cursor is compared with: `c.loop ? c.loop_end : c.end`. -/
def Channel.bound (c : Channel) : Nat := if c.loop then c.loop_end else c.end_

/-! ## The mixer -/

/-- Source function `clamp(int32_t s)`; the last branch is the cast `(int16_t)s`. -/
def clamp (s : Int) : Int :=
  if s < INT16_MIN then INT16_MIN
  else if s > INT16_MAX then INT16_MAX
  else toInt16 s

/-- The inner loop of `callback` over the channel indices still to visit:
`sum += getNextSample(channels[n]) / 2;` with `sum` an `int32_t` and `/` the C++ integer
division, which truncates toward zero. -/
def mixLoop : List (Fin NUM_CHANNELS) → Int → (Fin NUM_CHANNELS → Channel) →
    Option (Int × (Fin NUM_CHANNELS → Channel))
  | [], sum, channels => some (sum, channels)
  | n :: ns, sum, channels =>
    match getNextSample (channels n) with
    | none => none
    | some (s, c) => mixLoop ns (toInt32 (sum + Int.tdiv s 2)) (Function.update channels n c)

/-- The outer loop of `callback`, for `count` output samples: each round starts with
`sum = 0`, visits the channels 0..3 and writes `clamp(sum)` to the stream. -/
def callbackLoop : Nat → (Fin NUM_CHANNELS → Channel) →
    Option (List Int × (Fin NUM_CHANNELS → Channel))
  | 0, channels => some ([], channels)
  | count + 1, channels =>
    match mixLoop (List.finRange NUM_CHANNELS) 0 channels with
    | none => none
    | some (sum, channels1) =>
      match callbackLoop count channels1 with
      | none => none
      | some (out, channels2) => some (clamp sum :: out, channels2)

/-- Source function `callback(void* userdata, uint8_t* stream, int len)`: the samples written to `stream`,
in order, and the channels afterwards; `len / 2` is the C++ division of an `int`. -/
def callback (len : Int) (channels : Fin NUM_CHANNELS → Channel) :
    Option (List Int × (Fin NUM_CHANNELS → Channel)) :=
  callbackLoop (Int.tdiv len 2).toNat channels

/-! ## Loading -/

/-- Source function `trim_sample(int16_t* sampleData, uint32_t numSamples)`; `none` when it reads outside
the buffer. -/
def trim_sample (sampleData : List Int) : Nat → Option Nat
  | 0 => some 0
  | n + 1 =>
    match sampleData[n]? with
    | none => none
    | some s => if s ≠ 0 then some (n + 1) else trim_sample sampleData n

/-- Source function `throw_error(std::string msg)`; `sdlError` is what `SDL_GetError()` returns. -/
def throw_error {α : Type} (msg sdlError : String) : Except String α :=
  Except.error (msg ++ sdlError)

/-- Source function `AUDIO_LoadWav(const char* name, bool trim)`.  The call of `SDL_LoadWAV` is taken by
its outcome `loaded`: `none` for a null result, otherwise the `wav` it filled, whose
`numSamples` then holds the length of the buffer in bytes.  The result is the thrown
message or the returned handle with the new state; the outer `none` is a read outside the
buffer.  The line written to `std::cout` is left out. -/
def AUDIO_LoadWav (st : State) (loaded : Option Wav) (sdlError : String) (trim : Bool) :
    Option (Except String (Int × State)) :=
  match loaded with
  | none => some (throw_error "SDL_LoadWav error: " sdlError)
  | some wav0 =>
    let wav1 := { wav0 with numSamples := wav0.numSamples / 2 }
    let trimmed : Option Wav :=
      if trim then
        (trim_sample wav1.sampleData wav1.numSamples).map
          fun n => { wav1 with numSamples := n }
      else some wav1
    match trimmed with
    | none => none
    | some wav2 =>
      let st1 := { st with loadedWavs := st.loadedWavs ++ [wav2] }
      some (Except.ok ((st1.loadedWavs.length : Int) - 1, st1))

/-! ## Positions -/

/-- Rounding of a rational to the nearest integer, a tie going to the even one. -/
def roundHalfEven (q : ℚ) : Int :=
  let f := ⌊q⌋
  let r := q - f
  if r < 1 / 2 then f
  else if 1 / 2 < r then f + 1
  else if f % 2 = 0 then f else f + 1

/-- The `double` nearest to the rational `x`: binary64 arithmetic in its default rounding
mode, a value being held as the rational it denotes.  A `double` has a 53-bit significand;
the exponent range is not modelled (the magnitudes that `int` arguments produce here lie
between `2^-7` and `2^62`, far inside it). -/
def roundDouble (x : ℚ) : ℚ :=
  if x = 0 then 0
  else
    let e := Int.log 2 |x|
    let ulp : ℚ := 2 ^ (e - 52)
    roundHalfEven (x / ulp) * ulp

/-- The integer part of a `double`, as a conversion to an integer type takes it
 (truncation toward zero). -/
def truncDouble (d : ℚ) : Int := if 0 ≤ d then ⌊d⌋ else ⌈d⌉

/-- Source function `pos2sample(int pos, int frequency)`, that is
`(uint32_t)(pos * ((double)frequency / 128.0))`.  When the integer part of the product
does not fit `uint32_t` the C++ standard does not say which value the conversion has;
`oor` is the value the machine at hand gives then. -/
def pos2sample (oor : ℚ → Nat) (pos frequency : Int) : Nat :=
  let d := roundDouble (roundDouble pos * roundDouble (roundDouble frequency / 128))
  let t := truncDouble d
  if 0 ≤ t ∧ t < 4294967296 then t.toNat else oor d % 4294967296

/-- Source function `AUDIO_Play(int id, int chan, int loop_start, int loop_end)`; `none`
when `id` or `chan` is out of range. -/
def AUDIO_Play_region (oor : ℚ → Nat) (st : State) (id chan loop_start loop_end : Int) :
    Option State :=
  match wavAt st id, chanIndex chan with
  | some w, some i =>
    let start := 0
    let end_ := w.numSamples
    some (setChannel st i
      { wav := some w, loop := true, playing := true,
        start := start, end_ := end_,
        loop_start := min (pos2sample oor loop_start w.freq) end_,
        loop_end := min (pos2sample oor loop_end w.freq) end_,
        current := start })
  | _, _ => none

/-! ## The call of a load with the globals it leaves -/

/-- The call of `AUDIO_LoadWav` once more, now with the globals as the call leaves them also
when it throws: the outcome (the thrown message or the returned handle) and the state after
the call.  In the source the `throw` of a failed `SDL_LoadWAV` comes before the only write
to a global, the `push_back`. -/
def AUDIO_LoadWav_globals (st : State) (loaded : Option Wav) (sdlError : String)
    (trim : Bool) : Option (Except String Int × State) :=
  match loaded with
  | none => some (throw_error "SDL_LoadWav error: " sdlError, st)
  | some wav0 =>
    let wav1 := { wav0 with numSamples := wav0.numSamples / 2 }
    let trimmed : Option Wav :=
      if trim then
        (trim_sample wav1.sampleData wav1.numSamples).map
          fun n => { wav1 with numSamples := n }
      else some wav1
    match trimmed with
    | none => none
    | some wav2 =>
      let st1 := { st with loadedWavs := st.loadedWavs ++ [wav2] }
      some (Except.ok ((st1.loadedWavs.length : Int) - 1), st1)

/-! ## Reads of the buffer -/

/-- The index of `sampleData` that a call of `getNextSample` reads, when the call gets as
far as `c.wav->sampleData[c.current++]`: the cursor, or `loop_start` after a wrap. -/
def readIndex (c : Channel) : Option Nat :=
  if !c.playing then none
  else if c.current ≥ (if c.loop then c.loop_end else c.end_) then
    if c.loop then some c.loop_start else none
  else some c.current

/-- The conditions under which the reads of a channel on the buffer `w` are claimed to stay
inside the buffer: `end ≤ numSamples`, `current ≤ end` and, when `loop` is set,
`loop_start < loop_end ≤ end` and `current ≤ loop_end`. -/
def Channel.inBounds (c : Channel) (w : Wav) : Prop :=
  c.end_ ≤ w.numSamples ∧ c.current ≤ c.end_ ∧
    (c.loop = true → c.loop_start < c.loop_end ∧ c.loop_end ≤ c.end_ ∧
      c.current ≤ c.loop_end)

instance (c : Channel) (w : Wav) : Decidable (c.inBounds w) := by
  unfold Channel.inBounds
  infer_instance

/-! ## Sequences of operations -/

/-- The operations a program performs on the globals: the control calls, and `advance` for
one call of `getNextSample` on a channel (as the callback makes it). -/
inductive Op where
  | load (loaded : Option Wav) (sdlError : String) (trim : Bool)
  | play (id chan : Int) (loop : Bool)
  | playRegion (id chan loop_start loop_end : Int)
  | stop (chan : Int)
  | stopLoop (chan : Int)
  | advance (chan : Int)

/-- The state after one operation; a load that throws leaves the state as it is. -/
def step (oor : ℚ → Nat) (st : State) : Op → Option State
  | Op.load loaded sdlError trim =>
    (AUDIO_LoadWav_globals st loaded sdlError trim).map fun r => r.2
  | Op.play id chan loop => AUDIO_Play st id chan loop
  | Op.playRegion id chan loop_start loop_end =>
    AUDIO_Play_region oor st id chan loop_start loop_end
  | Op.stop chan => AUDIO_Stop st chan
  | Op.stopLoop chan => AUDIO_StopLoop st chan
  | Op.advance chan =>
    match chanIndex chan with
    | none => none
    | some i =>
      match getNextSample (st.channels i) with
      | none => none
      | some (_, c) => some (setChannel st i c)

/-- The state after a sequence of operations, first to last. -/
def run (oor : ℚ → Nat) : List Op → State → Option State
  | [], st => some st
  | op :: ops, st =>
    match step oor st op with
    | none => none
    | some st1 => run oor ops st1

/-- Whether an operation gives its loop region in order: for a play with a loop region,
`pos2sample(loop_start, freq) ≤ pos2sample(loop_end, freq)` at the rate of the buffer
played; every other operation does. -/
def Op.ordered (oor : ℚ → Nat) (st : State) : Op → Bool
  | Op.playRegion id _ loop_start loop_end =>
    match wavAt st id with
    | some w => decide (pos2sample oor loop_start w.freq ≤ pos2sample oor loop_end w.freq)
    | none => true
  | _ => true

/-- Whether every operation of a sequence gives its loop region in order, each taken in
the state it is performed in. -/
def orderedRun (oor : ℚ → Nat) : List Op → State → Bool
  | [], _ => true
  | op :: ops, st =>
    Op.ordered oor st op &&
      match step oor st op with
      | none => true
      | some st1 => orderedRun oor ops st1

/-! # Theorems -/

/-! ## Facts about the cursor -/

theorem getNextSample_idle (c : Channel) (h : c.playing = false) :
    getNextSample c = some (0, c) := by
  simp [getNextSample, h]

theorem getNextSamples_idle (m : Nat) (c : Channel) (h : c.playing = false) :
    getNextSamples m c = some (List.replicate m 0, c) := by
  induction m with
  | zero => rfl
  | succ k ih => simp [getNextSamples, getNextSample_idle c h, ih, List.replicate_succ]

/-- Running `a + b` calls is running `a` calls and then `b` calls. -/
theorem getNextSamples_add (a b : Nat) (c : Channel) :
    getNextSamples (a + b) c =
      (getNextSamples a c).bind fun p =>
        (getNextSamples b p.2).map fun q => (p.1 ++ q.1, q.2) := by
  induction a generalizing c with
  | zero =>
    simp only [Nat.zero_add, getNextSamples, Option.some_bind, List.nil_append]
    cases getNextSamples b c <;> simp
  | succ k ih =>
    rw [Nat.succ_add]
    simp only [getNextSamples]
    cases h1 : getNextSample c with
    | none => simp
    | some r =>
      obtain ⟨s, c1⟩ := r
      simp only [ih c1]
      cases h2 : getNextSamples k c1 with
      | none => simp
      | some r2 =>
        obtain ⟨ss, c2⟩ := r2
        simp only [Option.some_bind]
        cases h3 : getNextSamples b c2 <;> simp

theorem getNextSamples_add_some {a b : Nat} {c c1 c2 : Channel} {xs ys : List Int}
    (h1 : getNextSamples a c = some (xs, c1)) (h2 : getNextSamples b c1 = some (ys, c2)) :
    getNextSamples (a + b) c = some (xs ++ ys, c2) := by
  simp [getNextSamples_add, h1, h2]

/-- One call below the bound reads the sample under the cursor and moves on by one. -/
theorem getNextSample_below (c : Channel) (w : Wav) (hp : c.playing = true)
    (hw : c.wav = some w) (hlt : c.current < c.bound) (hb : c.bound ≤ w.sampleData.length)
    (h32 : c.bound < 4294967296) :
    ∃ s, w.sampleData[c.current]? = some s ∧
      getNextSample c = some (s, { c with current := c.current + 1 }) := by
  have hlen : c.current < w.sampleData.length := by omega
  refine ⟨w.sampleData[c.current], List.getElem?_eq_getElem hlen, ?_⟩
  have hb2 : ¬ (c.current ≥ if c.loop then c.loop_end else c.end_) := by
    unfold Channel.bound at hlt; omega
  have hinc : incr32 c.current = c.current + 1 := by
    unfold incr32; omega
  simp [getNextSample, hp, hb2, readAndAdvance, hw, List.getElem?_eq_getElem hlen, hinc]

/-- While the cursor stays below the bound, `m` calls return the `m` samples from the
cursor on and leave the cursor `m` further. -/
theorem getNextSamples_below (m : Nat) (c : Channel) (w : Wav) (hp : c.playing = true)
    (hw : c.wav = some w) (hle : c.current + m ≤ c.bound)
    (hb : c.bound ≤ w.sampleData.length) (h32 : c.bound < 4294967296) :
    getNextSamples m c =
      some ((w.sampleData.drop c.current).take m, { c with current := c.current + m }) := by
  induction m generalizing c with
  | zero => simp [getNextSamples]
  | succ k ih =>
    obtain ⟨s, hs, hstep⟩ := getNextSample_below c w hp hw (by omega) hb h32
    have hrec := ih { c with current := c.current + 1 } hp hw
      (by simp only [Channel.bound] at hle ⊢; omega)
      (by simpa only [Channel.bound] using hb) (by simpa only [Channel.bound] using h32)
    simp only [getNextSamples, hstep, hrec]
    have hlen : c.current < w.sampleData.length := by omega
    rw [List.getElem?_eq_getElem hlen] at hs
    injection hs with hs
    rw [List.drop_eq_getElem_cons hlen, List.take_succ_cons, hs]
    simp [Nat.add_assoc, Nat.add_comm 1 k]

/-- A non-looping channel whose cursor has reached `end` goes idle and returns 0. -/
theorem getNextSample_at_end (c : Channel) (hp : c.playing = true) (hl : c.loop = false)
    (hge : c.end_ ≤ c.current) :
    getNextSample c = some (0, { c with playing := false }) := by
  simp [getNextSample, hp, hl, hge]

theorem chanIndex_eq_some {chan : Int} {i : Fin NUM_CHANNELS} (h : chanIndex chan = some i) :
    chan = (i.val : Int) := by
  unfold chanIndex at h
  split at h
  · rename_i hc
    injection h with h
    subst h
    simp only [Int.toNat_of_nonneg hc.1]
  · cases h

/-- What `AUDIO_Play(id, chan, loop)` does on a valid handle and a valid channel. -/
theorem AUDIO_Play_eq (st : State) (id chan : Int) (loop : Bool) (w : Wav)
    (i : Fin NUM_CHANNELS) (hw : wavAt st id = some w) (hc : chanIndex chan = some i) :
    AUDIO_Play st id chan loop = some (setChannel st i
      { wav := some w, current := 0, loop := loop, playing := true, start := 0,
        end_ := w.numSamples, loop_start := 0, loop_end := w.numSamples }) := by
  simp [AUDIO_Play, hw, hc]

/-- A non-looping channel plays the samples from its cursor up to `end` and then is idle. -/
theorem getNextSamples_nonloop (c : Channel) (w : Wav) (m : Nat) (hp : c.playing = true)
    (hl : c.loop = false) (hw : c.wav = some w) (hcur : c.current ≤ c.end_)
    (hb : c.end_ ≤ w.sampleData.length) (h32 : c.end_ < 4294967296) :
    ∃ c1, getNextSamples (c.end_ - c.current + m) c
        = some ((w.sampleData.drop c.current).take (c.end_ - c.current)
            ++ List.replicate m 0, c1) ∧
      (0 < m → c1.playing = false) := by
  have hbound : c.bound = c.end_ := by simp [Channel.bound, hl]
  have h1 := getNextSamples_below (c.end_ - c.current) c w hp hw (by rw [hbound]; omega)
    (by rw [hbound]; exact hb) (by rw [hbound]; exact h32)
  cases m with
  | zero =>
    exact ⟨_, by simpa using h1, by intro h; omega⟩
  | succ k =>
    refine ⟨{ c with current := c.current + (c.end_ - c.current), playing := false }, ?_,
      fun _ => rfl⟩
    have h2 : getNextSamples (k + 1) { c with current := c.current + (c.end_ - c.current) }
        = some (List.replicate (k + 1) 0,
            { c with current := c.current + (c.end_ - c.current), playing := false }) := by
      have hstep := getNextSample_at_end
        { c with current := c.current + (c.end_ - c.current) } hp hl
        (by show c.end_ ≤ c.current + (c.end_ - c.current); omega)
      simp only [getNextSamples, hstep]
      rw [getNextSamples_idle k _ rfl]
      simp [List.replicate_succ]
    exact getNextSamples_add_some h1 h2

/-- C1 (non-looping playback): for a loaded buffer `w` of `n = w.numSamples` samples and any
of the four channels, `AUDIO_Play(id, chan, false)` succeeds, and afterwards the first `n`
calls of `getNextSample` on that channel return the samples 0..n-1 of the buffer in order
and every later call returns 0, the channel not playing any more from call `n+1` on. -/
theorem nonlooping_playback (st : State) (id chan : Int) (w : Wav) (i : Fin NUM_CHANNELS)
    (hw : wavAt st id = some w) (hc : chanIndex chan = some i)
    (hlen : w.numSamples ≤ w.sampleData.length) (h32 : w.numSamples < 4294967296) :
    ∃ st1, AUDIO_Play st id chan false = some st1 ∧
      ∀ m : Nat, ∃ c1,
        getNextSamples (w.numSamples + m) (st1.channels i)
          = some (w.sampleData.take w.numSamples ++ List.replicate m 0, c1) ∧
        (0 < m → c1.playing = false ∧
          AUDIO_isPlaying (setChannel st1 i c1) chan = some false) := by
  refine ⟨_, AUDIO_Play_eq st id chan false w i hw hc, fun m => ?_⟩
  simp only [setChannel, Function.update_same]
  obtain ⟨c1, h1, h2⟩ := getNextSamples_nonloop
    { wav := some w, current := 0, loop := false, playing := true, start := 0,
      end_ := w.numSamples, loop_start := 0, loop_end := w.numSamples } w m rfl rfl rfl
    (Nat.zero_le _) hlen h32
  refine ⟨c1, by simpa using h1, fun hm => ⟨h2 hm, ?_⟩⟩
  simp [AUDIO_isPlaying, hc, h2 hm]

/-- The scenario of C1: the buffer `[5,0,3,0]` on channel 0. -/
theorem nonlooping_playback_witness :
    ∃ st1, AUDIO_Play ⟨[⟨22050, [5, 0, 3, 0], 4⟩], fun _ => Channel.init⟩ 0 0 false = some st1 ∧
      ∀ m : Nat, ∃ c1,
        getNextSamples (4 + m) (st1.channels 0)
          = some ([5, 0, 3, 0] ++ List.replicate m 0, c1) ∧
        (0 < m → c1.playing = false ∧
          AUDIO_isPlaying (setChannel st1 0 c1) 0 = some false) :=
  nonlooping_playback ⟨[⟨22050, [5, 0, 3, 0], 4⟩], fun _ => Channel.init⟩ 0 0
    ⟨22050, [5, 0, 3, 0], 4⟩ 0 rfl rfl (by decide) (by decide)

theorem succ_mod_cases (m p : Nat) (hp : 0 < p) :
    (m % p + 1 < p ∧ (m + 1) % p = m % p + 1) ∨ (m % p + 1 = p ∧ (m + 1) % p = 0) := by
  have hlt : m % p < p := Nat.mod_lt m hp
  rcases Nat.lt_or_ge (m % p + 1) p with h | h
  · left
    refine ⟨h, ?_⟩
    rw [Nat.add_mod, Nat.mod_eq_of_lt (a := 1) (by omega), Nat.mod_eq_of_lt h]
  · right
    have he : m % p + 1 = p := by omega
    refine ⟨he, ?_⟩
    rw [Nat.add_mod]
    rcases Nat.lt_or_ge 1 p with h1 | h1
    · rw [Nat.mod_eq_of_lt h1, he, Nat.mod_self]
    · have hp1 : p = 1 := by omega
      subst hp1
      exact Nat.mod_one _

/-- A looping channel at the loop end wraps to the loop start and reads there. -/
theorem getNextSample_wrap (c : Channel) (w : Wav) (hp : c.playing = true)
    (hl : c.loop = true) (hw : c.wav = some w) (hge : c.loop_end ≤ c.current)
    (hlt : c.loop_start < w.sampleData.length) (h32 : c.loop_start + 1 < 4294967296) :
    ∃ s, w.sampleData[c.loop_start]? = some s ∧
      getNextSample c = some (s, { c with current := c.loop_start + 1 }) := by
  refine ⟨w.sampleData[c.loop_start], List.getElem?_eq_getElem hlt, ?_⟩
  have hinc : incr32 c.loop_start = c.loop_start + 1 := by
    unfold incr32; omega
  simp [getNextSample, hp, hl, hge, readAndAdvance, hw, List.getElem?_eq_getElem hlt, hinc]

/-- The run of a looping channel from cursor 0, with the cursor after each call. -/
theorem getNextSamples_loop (c : Channel) (w : Wav) (hp : c.playing = true)
    (hl : c.loop = true) (hw : c.wav = some w) (h0 : c.current = 0)
    (h1 : c.loop_start < c.loop_end) (h2 : c.loop_end ≤ w.sampleData.length)
    (h32 : c.loop_end < 4294967296) (n : Nat) :
    ∃ outs, getNextSamples n c = some (outs, { c with current :=
        if n ≤ c.loop_end then n
        else c.loop_start + (n - 1 - c.loop_end) % (c.loop_end - c.loop_start) + 1 }) ∧
      outs.length = n ∧
      ∀ k, k < n → outs[k]? = w.sampleData[if k < c.loop_end then k
        else c.loop_start + (k - c.loop_end) % (c.loop_end - c.loop_start)]? := by
  induction n with
  | zero =>
    refine ⟨[], ?_, rfl, fun k hk => absurd hk (Nat.not_lt_zero k)⟩
    cases c
    simp only at h0
    subst h0
    simp [getNextSamples]
  | succ n ih =>
    obtain ⟨outs, hrun, hlen, hout⟩ := ih
    have hpos : 0 < c.loop_end - c.loop_start := by omega
    have hbd : ∀ cur, Channel.bound { c with current := cur } = c.loop_end := by
      intro cur; simp [Channel.bound, hl]
    -- the step from the state after `n` calls
    have hstep : ∃ s, w.sampleData[if n < c.loop_end then n
          else c.loop_start + (n - c.loop_end) % (c.loop_end - c.loop_start)]? = some s ∧
        getNextSample { c with current :=
          if n ≤ c.loop_end then n
          else c.loop_start + (n - 1 - c.loop_end) % (c.loop_end - c.loop_start) + 1 }
        = some (s, { c with current :=
          if n + 1 ≤ c.loop_end then n + 1
          else c.loop_start + (n + 1 - 1 - c.loop_end) % (c.loop_end - c.loop_start) + 1 }) := by
      rcases Nat.lt_trichotomy n c.loop_end with hn | hn | hn
      · -- still on the first pass
        obtain ⟨s, hs, hg⟩ := getNextSample_below { c with current := n } w hp hw
          (by rw [hbd]; exact hn) (by rw [hbd]; exact h2) (by rw [hbd]; exact h32)
        refine ⟨s, by simpa [hn] using hs, ?_⟩
        simpa [Nat.le_of_lt hn, Nat.succ_le_of_lt hn] using hg
      · -- the cursor has just reached the loop end
        obtain ⟨s, hs, hg⟩ := getNextSample_wrap { c with current := n } w hp hl hw
          (by show c.loop_end ≤ n; omega)
          (by show c.loop_start < w.sampleData.length; omega)
          (by show c.loop_start + 1 < 4294967296; omega)
        refine ⟨s, by simpa [hn] using hs, ?_⟩
        simpa [hn] using hg
      · -- inside the cycle
        have hnle : ¬ n ≤ c.loop_end := by omega
        have hnlt : ¬ n < c.loop_end := by omega
        have hn1 : ¬ n + 1 ≤ c.loop_end := by omega
        have hsub : n - c.loop_end = (n - 1 - c.loop_end) + 1 := by omega
        simp only [hnle, hnlt, hn1, if_false, Nat.add_sub_cancel]
        rw [hsub]
        rcases succ_mod_cases (n - 1 - c.loop_end) (c.loop_end - c.loop_start) hpos
          with ⟨hr, hm⟩ | ⟨hr, hm⟩
        · rw [hm]
          obtain ⟨s, hs, hg⟩ := getNextSample_below
            { c with current :=
                c.loop_start + (n - 1 - c.loop_end) % (c.loop_end - c.loop_start) + 1 }
            w hp hw
            (by rw [hbd]
                show c.loop_start + (n - 1 - c.loop_end) % (c.loop_end - c.loop_start) + 1
                  < c.loop_end
                omega)
            (by rw [hbd]; exact h2) (by rw [hbd]; exact h32)
          exact ⟨s, by simpa [Nat.add_assoc] using hs, by simpa [Nat.add_assoc] using hg⟩
        · rw [hm]
          obtain ⟨s, hs, hg⟩ := getNextSample_wrap
            { c with current :=
                c.loop_start + (n - 1 - c.loop_end) % (c.loop_end - c.loop_start) + 1 }
            w hp hl hw
            (by show c.loop_end
                  ≤ c.loop_start + (n - 1 - c.loop_end) % (c.loop_end - c.loop_start) + 1
                omega)
            (by show c.loop_start < w.sampleData.length; omega)
            (by show c.loop_start + 1 < 4294967296; omega)
          exact ⟨s, by simpa using hs, by simpa using hg⟩
    obtain ⟨s, hs, hg⟩ := hstep
    have hone : getNextSamples 1 { c with current :=
          if n ≤ c.loop_end then n
          else c.loop_start + (n - 1 - c.loop_end) % (c.loop_end - c.loop_start) + 1 }
        = some ([s], { c with current :=
          if n + 1 ≤ c.loop_end then n + 1
          else c.loop_start + (n + 1 - 1 - c.loop_end) % (c.loop_end - c.loop_start) + 1 }) := by
      simp only [getNextSamples, hg]
    refine ⟨outs ++ [s], getNextSamples_add_some hrun hone, by simp [hlen], ?_⟩
    intro k hk
    rcases Nat.lt_or_ge k n with hkn | hkn
    · rw [List.getElem?_append_left (by omega)]
      exact hout k hkn
    · have hkn2 : k = n := by omega
      subst hkn2
      rw [List.getElem?_append_right (by omega), hlen, Nat.sub_self, hs]
      rfl

/-- C2 (looping playback): a playing channel with `loop` set, the cursor at 0 and
`loop_start < loop_end ≤ end ≤ numSamples` answers any number `n` of `getNextSample` calls;
the `k`-th returned sample (from 0) is `buffer[k]` for `k < loop_end` and
`buffer[loop_start + (k - loop_end) mod (loop_end - loop_start)]` from `loop_end` on, and
the channel is still playing (and looping) after the `n` calls. -/
theorem looping_playback (c : Channel) (w : Wav) (hp : c.playing = true)
    (hl : c.loop = true) (hw : c.wav = some w) (h0 : c.current = 0)
    (h1 : c.loop_start < c.loop_end) (h2 : c.loop_end ≤ c.end_) (h3 : c.end_ ≤ w.numSamples)
    (h4 : w.numSamples ≤ w.sampleData.length) (h32 : w.numSamples < 4294967296) (n : Nat) :
    ∃ outs c1, getNextSamples n c = some (outs, c1) ∧
      c1.playing = true ∧ c1.loop = true ∧ outs.length = n ∧
      ∀ k, k < n →
        (k < c.loop_end → outs[k]? = w.sampleData[k]?) ∧
        (c.loop_end ≤ k → outs[k]? =
          w.sampleData[c.loop_start + (k - c.loop_end) % (c.loop_end - c.loop_start)]?) := by
  obtain ⟨outs, hrun, hlen, hout⟩ :=
    getNextSamples_loop c w hp hl hw h0 h1 (by omega) (by omega) n
  refine ⟨outs, _, hrun, hp, hl, hlen, fun k hk => ⟨fun hlt => ?_, fun hge => ?_⟩⟩
  · simpa [hlt] using hout k hk
  · have hnlt : ¬ k < c.loop_end := by omega
    simpa [hnlt] using hout k hk

/-- C2 on the buffer `[5,0,3,0,7]` with the loop region `[1,3)`: nine calls. -/
theorem looping_playback_witness :
    ∃ outs c1, getNextSamples 9 ⟨some ⟨22050, [5, 0, 3, 0, 7], 5⟩, 0, true, true, 0, 5, 1, 3⟩
        = some (outs, c1) ∧
      c1.playing = true ∧ c1.loop = true ∧ outs.length = 9 ∧
      ∀ k, k < 9 →
        (k < 3 → outs[k]? = [5, 0, 3, 0, 7][k]?) ∧
        (3 ≤ k → outs[k]? = [5, 0, 3, 0, 7][1 + (k - 3) % (3 - 1)]?) :=
  looping_playback ⟨some ⟨22050, [5, 0, 3, 0, 7], 5⟩, 0, true, true, 0, 5, 1, 3⟩
    ⟨22050, [5, 0, 3, 0, 7], 5⟩ rfl rfl rfl rfl (by decide) (by decide) (by decide)
    (by decide) (by decide) 9

/-! ## Facts about the mixer -/

/-- Halving a 16-bit sample (C++ `/ 2`) stays within `[-16384, 16383]`. -/
theorem tdiv_two_bounds (s : Int) (h1 : INT16_MIN ≤ s) (h2 : s ≤ INT16_MAX) :
    -16384 ≤ Int.tdiv s 2 ∧ Int.tdiv s 2 ≤ 16383 := by
  unfold INT16_MIN at h1
  unfold INT16_MAX at h2
  rcases Int.le_total 0 s with h | h
  · rw [Int.tdiv_eq_ediv h (by decide)]; omega
  · have hs : s = -(-s) := by omega
    rw [hs, Int.neg_tdiv, Int.tdiv_eq_ediv (by omega) (by decide)]; omega

theorem toInt32_of_range (x : Int) (h1 : -2147483648 ≤ x) (h2 : x < 2147483648) :
    toInt32 x = x := by
  unfold toInt32; omega

theorem toInt16_of_range (x : Int) (h1 : -32768 ≤ x) (h2 : x ≤ 32767) :
    toInt16 x = x := by
  unfold toInt16; omega

/-- The four channels are visited in the order 0, 1, 2, 3. -/
theorem finRange_channels :
    List.finRange NUM_CHANNELS = [(0 : Fin NUM_CHANNELS), 1, 2, 3] := rfl

/-- One round of the inner loop: when the four calls of `getNextSample` return the 16-bit
samples `s i`, the accumulator ends as the exact sum of their halves and every channel is
replaced by its state after the call. -/
theorem mixLoop_eq (channels cs : Fin NUM_CHANNELS → Channel) (s : Fin NUM_CHANNELS → Int)
    (hget : ∀ i, getNextSample (channels i) = some (s i, cs i))
    (hrange : ∀ i, INT16_MIN ≤ s i ∧ s i ≤ INT16_MAX) :
    mixLoop (List.finRange NUM_CHANNELS) 0 channels
      = some (Int.tdiv (s 0) 2 + Int.tdiv (s 1) 2 + Int.tdiv (s 2) 2 + Int.tdiv (s 3) 2,
          cs) := by
  have b0 := tdiv_two_bounds (s 0) (hrange 0).1 (hrange 0).2
  have b1 := tdiv_two_bounds (s 1) (hrange 1).1 (hrange 1).2
  have b2 := tdiv_two_bounds (s 2) (hrange 2).1 (hrange 2).2
  have b3 := tdiv_two_bounds (s 3) (hrange 3).1 (hrange 3).2
  have e0 : toInt32 (0 + Int.tdiv (s 0) 2) = Int.tdiv (s 0) 2 := by
    rw [Int.zero_add]; exact toInt32_of_range _ (by omega) (by omega)
  have e1 : toInt32 (Int.tdiv (s 0) 2 + Int.tdiv (s 1) 2)
      = Int.tdiv (s 0) 2 + Int.tdiv (s 1) 2 :=
    toInt32_of_range _ (by omega) (by omega)
  have e2 : toInt32 (Int.tdiv (s 0) 2 + Int.tdiv (s 1) 2 + Int.tdiv (s 2) 2)
      = Int.tdiv (s 0) 2 + Int.tdiv (s 1) 2 + Int.tdiv (s 2) 2 :=
    toInt32_of_range _ (by omega) (by omega)
  have e3 : toInt32 (Int.tdiv (s 0) 2 + Int.tdiv (s 1) 2 + Int.tdiv (s 2) 2
        + Int.tdiv (s 3) 2)
      = Int.tdiv (s 0) 2 + Int.tdiv (s 1) 2 + Int.tdiv (s 2) 2 + Int.tdiv (s 3) 2 :=
    toInt32_of_range _ (by omega) (by omega)
  have u1 : Function.update channels 0 (cs 0) 1 = channels 1 :=
    Function.update_noteq (by decide) _ _
  have u2 : Function.update (Function.update channels 0 (cs 0)) 1 (cs 1) 2 = channels 2 := by
    rw [Function.update_noteq (by decide), Function.update_noteq (by decide)]
  have u3 : Function.update (Function.update (Function.update channels 0 (cs 0)) 1 (cs 1))
      2 (cs 2) 3 = channels 3 := by
    rw [Function.update_noteq (by decide), Function.update_noteq (by decide),
      Function.update_noteq (by decide)]
  have hfin : Function.update (Function.update (Function.update
      (Function.update channels 0 (cs 0)) 1 (cs 1)) 2 (cs 2)) 3 (cs 3) = cs := by
    funext i
    fin_cases i <;> rfl
  rw [finRange_channels]
  simp only [mixLoop, hget 0, e0, u1, hget 1, e1, u2, hget 2, e2, u3, hget 3, e3, hfin]

theorem getNextSamples_succ_inv {n : Nat} {c c2 : Channel} {ss : List Int}
    (h : getNextSamples (n + 1) c = some (ss, c2)) :
    ∃ s c1 rest, getNextSample c = some (s, c1) ∧ getNextSamples n c1 = some (rest, c2) ∧
      ss = s :: rest := by
  simp only [getNextSamples] at h
  cases h1 : getNextSample c with
  | none => simp [h1] at h
  | some r =>
    obtain ⟨s, c1⟩ := r
    simp only [h1] at h
    cases h2 : getNextSamples n c1 with
    | none => simp [h2] at h
    | some r2 =>
      obtain ⟨rest, c3⟩ := r2
      simp only [h2, Option.some.injEq, Prod.mk.injEq] at h
      exact ⟨s, c1, rest, rfl, by rw [h2, h.2], h.1.symm⟩

/-- The outer loop against the four channels run on their own: when `n` calls of
`getNextSample` on each channel return the 16-bit samples `ss i`, `n` rounds write `n`
samples, sample `t` being the clamped sum of the halves of the four samples of call `t`, and
leave each channel as its `n` calls leave it. -/
theorem callbackLoop_eq (n : Nat) (channels cs : Fin NUM_CHANNELS → Channel)
    (ss : Fin NUM_CHANNELS → List Int)
    (hrun : ∀ i, getNextSamples n (channels i) = some (ss i, cs i))
    (hrange : ∀ i, ∀ s ∈ ss i, INT16_MIN ≤ s ∧ s ≤ INT16_MAX) :
    ∃ out, callbackLoop n channels = some (out, cs) ∧ out.length = n ∧
      ∀ t, t < n → ∃ s0 s1 s2 s3,
        (ss 0)[t]? = some s0 ∧ (ss 1)[t]? = some s1 ∧
        (ss 2)[t]? = some s2 ∧ (ss 3)[t]? = some s3 ∧
        out[t]? = some (clamp (Int.tdiv s0 2 + Int.tdiv s1 2 + Int.tdiv s2 2
          + Int.tdiv s3 2)) := by
  induction n generalizing channels ss with
  | zero =>
    have hcs : cs = channels := by
      funext i
      have h := hrun i
      simp only [getNextSamples, Option.some.injEq, Prod.mk.injEq] at h
      exact h.2.symm
    subst hcs
    exact ⟨[], rfl, rfl, fun t ht => absurd ht (Nat.not_lt_zero t)⟩
  | succ n ih =>
    choose s c1 rest h1 h2 h3 using fun i => getNextSamples_succ_inv (hrun i)
    have hs : ∀ i, INT16_MIN ≤ s i ∧ s i ≤ INT16_MAX := fun i =>
      hrange i (s i) (by rw [h3 i]; exact List.mem_cons_self _ _)
    have hrest : ∀ i, ∀ x ∈ rest i, INT16_MIN ≤ x ∧ x ≤ INT16_MAX := fun i x hx =>
      hrange i x (by rw [h3 i]; exact List.mem_cons_of_mem _ hx)
    obtain ⟨out, hout, hlen, hval⟩ := ih c1 rest h2 hrest
    refine ⟨clamp (Int.tdiv (s 0) 2 + Int.tdiv (s 1) 2 + Int.tdiv (s 2) 2
      + Int.tdiv (s 3) 2) :: out, ?_, by simp [hlen], ?_⟩
    · simp only [callbackLoop, mixLoop_eq channels c1 s h1 hs, hout]
    · intro t ht
      cases t with
      | zero =>
        exact ⟨s 0, s 1, s 2, s 3, by simp [h3 0], by simp [h3 1], by simp [h3 2],
          by simp [h3 3], by simp⟩
      | succ t =>
        obtain ⟨s0, s1, s2, s3, e0, e1, e2, e3, e⟩ := hval t (by omega)
        refine ⟨s0, s1, s2, s3, ?_, ?_, ?_, ?_, ?_⟩
        · rw [h3 0]; simpa using e0
        · rw [h3 1]; simpa using e1
        · rw [h3 2]; simpa using e2
        · rw [h3 3]; simpa using e3
        · simpa using e

/-- C3 (mixer output): for a byte length `len ≥ 0`, whenever `⌊len/2⌋` calls of
`getNextSample` on each of the four channels return 16-bit samples `ss i`, the callback
writes exactly `⌊len/2⌋` samples, leaves each channel as its `⌊len/2⌋` calls leave it, and
output sample `t` is `clamp` of the sum of the four samples of call `t`, each halved with
rounding toward zero (so the half of -1 is 0 and the half of -32768 is -16384). -/
theorem callback_mixes (len : Int) (channels cs : Fin NUM_CHANNELS → Channel)
    (ss : Fin NUM_CHANNELS → List Int) (hlen : 0 ≤ len)
    (hrun : ∀ i, getNextSamples (len / 2).toNat (channels i) = some (ss i, cs i))
    (hrange : ∀ i, ∀ s ∈ ss i, INT16_MIN ≤ s ∧ s ≤ INT16_MAX) :
    ∃ out, callback len channels = some (out, cs) ∧ out.length = (len / 2).toNat ∧
      (∀ t, t < (len / 2).toNat → ∃ s0 s1 s2 s3,
        (ss 0)[t]? = some s0 ∧ (ss 1)[t]? = some s1 ∧
        (ss 2)[t]? = some s2 ∧ (ss 3)[t]? = some s3 ∧
        out[t]? = some (clamp (Int.tdiv s0 2 + Int.tdiv s1 2 + Int.tdiv s2 2
          + Int.tdiv s3 2))) ∧
      Int.tdiv (-1) 2 = 0 ∧ Int.tdiv (-32768) 2 = -16384 := by
  obtain ⟨out, h1, h2, h3⟩ := callbackLoop_eq (len / 2).toNat channels cs ss hrun hrange
  refine ⟨out, ?_, h2, h3, by decide, by decide⟩
  unfold callback
  rw [Int.tdiv_eq_ediv hlen (by decide)]
  exact h1

/-- C3 on four channels that all play `[32767, -1]`, for a length of 5 bytes: two samples
are written, `clamp (4 * 16383) = 32767` and `clamp (4 * 0) = 0`. -/
theorem callback_mixes_witness :
    ∃ out, callback 5 (fun _ => ⟨some ⟨22050, [32767, -1], 2⟩, 0, false, true, 0, 2, 0, 2⟩)
        = some (out, fun _ => ⟨some ⟨22050, [32767, -1], 2⟩, 2, false, true, 0, 2, 0, 2⟩) ∧
      out.length = 2 ∧ out[0]? = some 32767 ∧ out[1]? = some 0 := by
  obtain ⟨out, h1, h2, h3, _⟩ := callback_mixes 5
    (fun _ => ⟨some ⟨22050, [32767, -1], 2⟩, 0, false, true, 0, 2, 0, 2⟩)
    (fun _ => ⟨some ⟨22050, [32767, -1], 2⟩, 2, false, true, 0, 2, 0, 2⟩)
    (fun _ => [32767, -1]) (by decide) (by intro _; rfl)
    (fun _ s hs => by
      simp only [List.mem_cons, List.mem_singleton, List.not_mem_nil, or_false] at hs
      rcases hs with rfl | rfl <;> decide)
  refine ⟨out, h1, h2, ?_, ?_⟩
  · obtain ⟨s0, s1, s2, s3, e0, e1, e2, e3, e⟩ := h3 0 (by decide)
    simp only [List.getElem?_cons_zero, Option.some.injEq] at e0 e1 e2 e3
    subst e0 e1 e2 e3
    exact e
  · obtain ⟨s0, s1, s2, s3, e0, e1, e2, e3, e⟩ := h3 1 (by decide)
    simp only [List.getElem?_cons_succ, List.getElem?_cons_zero, Option.some.injEq]
      at e0 e1 e2 e3
    subst e0 e1 e2 e3
    exact e

/-- C4 (saturating clamp): for every integer `s` (every `int32_t` in particular) `clamp s`
is `max INT16_MIN (min INT16_MAX s)`, lies in the signed 16-bit range and is `s` itself when
`s` is in that range; and when each of the four channels returns `INT16_MAX`, the inner
loop sums to `4 * 16383 = 65532` and the callback writes `32767`. -/
theorem clamp_saturates (s : Int) (channels cs : Fin NUM_CHANNELS → Channel)
    (hmax : ∀ i, getNextSample (channels i) = some (INT16_MAX, cs i)) :
    clamp s = max INT16_MIN (min INT16_MAX s) ∧
      (INT16_MIN ≤ clamp s ∧ clamp s ≤ INT16_MAX) ∧
      (INT16_MIN ≤ s → s ≤ INT16_MAX → clamp s = s) ∧
      mixLoop (List.finRange NUM_CHANNELS) 0 channels = some (65532, cs) ∧
      callback 2 channels = some ([32767], cs) := by
  have hmix : mixLoop (List.finRange NUM_CHANNELS) 0 channels = some (65532, cs) :=
    mixLoop_eq channels cs (fun _ => INT16_MAX) hmax
      (by intro i; show INT16_MIN ≤ INT16_MAX ∧ INT16_MAX ≤ INT16_MAX; decide)
  have hcl : clamp s = max INT16_MIN (min INT16_MAX s) := by
    unfold clamp INT16_MIN INT16_MAX
    split
    · omega
    · split
      · omega
      · rw [toInt16_of_range s (by omega) (by omega)]; omega
  refine ⟨hcl, ?_, ?_, hmix, ?_⟩
  · rw [hcl]; unfold INT16_MIN INT16_MAX; omega
  · intro h1 h2
    rw [hcl]; unfold INT16_MIN INT16_MAX at *; omega
  · have h2 : Int.tdiv 2 2 = 1 := by decide
    simp only [callback, h2, Int.toNat_one, callbackLoop, hmix]
    rfl

/-- C4 at `s = 70000` and at four channels about to return `32767`. -/
theorem clamp_saturates_witness :
    clamp 70000 = 32767 ∧
      callback 2 (fun _ => ⟨some ⟨22050, [32767], 1⟩, 0, false, true, 0, 1, 0, 1⟩)
        = some ([32767], fun _ => ⟨some ⟨22050, [32767], 1⟩, 1, false, true, 0, 1, 0, 1⟩) :=
  have h := clamp_saturates 70000
    (fun _ => ⟨some ⟨22050, [32767], 1⟩, 0, false, true, 0, 1, 0, 1⟩)
    (fun _ => ⟨some ⟨22050, [32767], 1⟩, 1, false, true, 0, 1, 0, 1⟩) (by intro _; rfl)
  ⟨h.1.trans (by decide), h.2.2.2.2⟩

/-! ## Facts about loading -/

theorem trim_sample_all_zero (buf : List Int) (n : Nat)
    (hz : ∀ j, j < n → buf[j]? = some 0) : trim_sample buf n = some 0 := by
  induction n with
  | zero => rfl
  | succ n ih =>
    simp only [trim_sample, hz n (Nat.lt_succ_self n)]
    simpa using ih (fun j hj => hz j (Nat.lt_succ_of_lt hj))

theorem trim_sample_last_nonzero (buf : List Int) (n k : Nat) (v : Int) (hk : k < n)
    (hv : buf[k]? = some v) (hne : v ≠ 0) (hz : ∀ j, k < j → j < n → buf[j]? = some 0) :
    trim_sample buf n = some (k + 1) := by
  induction n with
  | zero => omega
  | succ n ih =>
    rcases Nat.lt_or_ge k n with h | h
    · simp only [trim_sample, hz n h (Nat.lt_succ_self n)]
      simpa using ih h (fun j hj1 hj2 => hz j hj1 (Nat.lt_succ_of_lt hj2))
    · have hkn : k = n := by omega
      subst hkn
      simp [trim_sample, hv, hne]

theorem trim_sample_total (buf : List Int) (n : Nat) (hn : n ≤ buf.length) :
    ∃ m, trim_sample buf n = some m ∧ m ≤ n := by
  induction n with
  | zero => exact ⟨0, rfl, Nat.le_refl 0⟩
  | succ n ih =>
    have hlt : n < buf.length := by omega
    simp only [trim_sample, List.getElem?_eq_getElem hlt]
    by_cases h0 : buf[n] = 0
    · obtain ⟨m, hm, hle⟩ := ih (by omega)
      exact ⟨m, by simpa [h0] using hm, by omega⟩
    · exact ⟨n + 1, by simp [h0], Nat.le_refl _⟩

/-- What a load whose decoding succeeded does, in terms of `trim_sample`. -/
theorem AUDIO_LoadWav_trim (st : State) (freq : Int) (buf : List Int) (bytes : Nat)
    (err : String) (m : Nat) (hm : trim_sample buf (bytes / 2) = some m) :
    AUDIO_LoadWav st (some ⟨freq, buf, bytes⟩) err true
      = some (Except.ok ((st.loadedWavs.length : Int),
          { st with loadedWavs := st.loadedWavs ++ [⟨freq, buf, m⟩] })) := by
  simp [AUDIO_LoadWav, hm]

theorem AUDIO_LoadWav_notrim (st : State) (freq : Int) (buf : List Int) (bytes : Nat)
    (err : String) :
    AUDIO_LoadWav st (some ⟨freq, buf, bytes⟩) err false
      = some (Except.ok ((st.loadedWavs.length : Int),
          { st with loadedWavs := st.loadedWavs ++ [⟨freq, buf, bytes / 2⟩] })) := by
  simp [AUDIO_LoadWav]

/-- C5 (silence trimming): for a buffer `buf` of `n = buf.length` samples, `trim_sample`
returns `k + 1` when `k` is the index of the last non-zero sample and 0 when every sample is
zero (also for `n = 0`); it always returns some `m ≤ n`, and a load of that buffer (decoded
as `bytes` bytes, `bytes / 2 = n`) stores it with sample count `m` when `trim` is true and
with sample count `n` when `trim` is false. -/
theorem trim_sample_effective_length (st : State) (freq : Int) (buf : List Int)
    (bytes : Nat) (err : String) (hbytes : bytes / 2 = buf.length) :
    (∀ k v, k < buf.length → buf[k]? = some v → v ≠ 0 →
      (∀ j, k < j → j < buf.length → buf[j]? = some 0) →
      trim_sample buf buf.length = some (k + 1)) ∧
    ((∀ j, j < buf.length → buf[j]? = some 0) → trim_sample buf buf.length = some 0) ∧
    (∃ m, trim_sample buf buf.length = some m ∧ m ≤ buf.length ∧
      AUDIO_LoadWav st (some ⟨freq, buf, bytes⟩) err true
        = some (Except.ok ((st.loadedWavs.length : Int),
            { st with loadedWavs := st.loadedWavs ++ [⟨freq, buf, m⟩] }))) ∧
    AUDIO_LoadWav st (some ⟨freq, buf, bytes⟩) err false
      = some (Except.ok ((st.loadedWavs.length : Int),
          { st with loadedWavs := st.loadedWavs ++ [⟨freq, buf, buf.length⟩] })) := by
  refine ⟨fun k v hk hv hne hz => trim_sample_last_nonzero buf buf.length k v hk hv hne hz,
    trim_sample_all_zero buf buf.length, ?_, ?_⟩
  · obtain ⟨m, hm, hle⟩ := trim_sample_total buf buf.length (Nat.le_refl _)
    exact ⟨m, hm, hle, AUDIO_LoadWav_trim st freq buf bytes err m (by rw [hbytes]; exact hm)⟩
  · rw [← hbytes]
    exact AUDIO_LoadWav_notrim st freq buf bytes err

/-- The scenario of C5: `[1,2,0,0]` trims to length 2, and is stored with length 2 when
loaded with `trim` and with length 4 without. -/
theorem trim_sample_effective_length_witness :
    trim_sample [1, 2, 0, 0] 4 = some 2 ∧
    AUDIO_LoadWav State.init (some ⟨22050, [1, 2, 0, 0], 8⟩) "" true
      = some (Except.ok (0, ⟨[⟨22050, [1, 2, 0, 0], 2⟩], State.init.channels⟩)) ∧
    AUDIO_LoadWav State.init (some ⟨22050, [1, 2, 0, 0], 8⟩) "" false
      = some (Except.ok (0, ⟨[⟨22050, [1, 2, 0, 0], 4⟩], State.init.channels⟩)) := by
  have h := trim_sample_effective_length State.init 22050 [1, 2, 0, 0] 8 "" (by decide)
  have h2 : trim_sample [1, 2, 0, 0] 4 = some 2 :=
    h.1 1 2 (by decide) (by decide) (by decide) (by
      intro j h1 h2
      have hj : j = 2 ∨ j = 3 := by
        simp only [List.length_cons, List.length_nil] at h2
        omega
      rcases hj with rfl | rfl <;> rfl)
  obtain ⟨m, hm, _, hload⟩ := h.2.2.1
  have hm2 : m = 2 := by
    have := hm.symm.trans h2
    simpa using this
  subst hm2
  exact ⟨h2, hload, h.2.2.2⟩

/-- The scenario of C6 against the claim as written: in `[1,2,0,0]` the last non-zero
sample has index 1, and a load with `trim` stores the buffer with sample count 2, not 1. -/
theorem trimmed_length_counterexample :
    ([1, 2, 0, 0] : List Int)[1]? = some 2 ∧ ([1, 2, 0, 0] : List Int)[2]? = some 0 ∧
    ([1, 2, 0, 0] : List Int)[3]? = some 0 ∧
    ∃ st1, AUDIO_LoadWav State.init (some ⟨22050, [1, 2, 0, 0], 8⟩) "" true
        = some (Except.ok (0, st1)) ∧
      st1.loadedWavs.map Wav.numSamples = [2] ∧ st1.loadedWavs.map Wav.numSamples ≠ [1] :=
  ⟨rfl, rfl, rfl, _, rfl, rfl, by decide⟩

/-- C6 as amended: a load with `trim` of a buffer whose last non-zero sample has index `k`
stores it with sample count `k + 1`, and stores an all-zero buffer with sample count 0. -/
theorem trimmed_load_length (st : State) (freq : Int) (buf : List Int) (bytes : Nat)
    (err : String) (hbytes : bytes / 2 = buf.length) :
    (∀ k v, buf[k]? = some v → v ≠ 0 →
      (∀ j, k < j → j < buf.length → buf[j]? = some 0) →
      AUDIO_LoadWav st (some ⟨freq, buf, bytes⟩) err true
        = some (Except.ok ((st.loadedWavs.length : Int),
            { st with loadedWavs := st.loadedWavs ++ [⟨freq, buf, k + 1⟩] }))) ∧
    ((∀ j, j < buf.length → buf[j]? = some 0) →
      AUDIO_LoadWav st (some ⟨freq, buf, bytes⟩) err true
        = some (Except.ok ((st.loadedWavs.length : Int),
            { st with loadedWavs := st.loadedWavs ++ [⟨freq, buf, 0⟩] }))) := by
  refine ⟨fun k v hv hne hz => ?_, fun hz => ?_⟩
  · have hk : k < buf.length := by
      rcases Nat.lt_or_ge k buf.length with h | h
      · exact h
      · rw [List.getElem?_eq_none h] at hv
        cases hv
    exact AUDIO_LoadWav_trim st freq buf bytes err (k + 1)
      (by rw [hbytes]; exact trim_sample_last_nonzero buf buf.length k v hk hv hne hz)
  · exact AUDIO_LoadWav_trim st freq buf bytes err 0
      (by rw [hbytes]; exact trim_sample_all_zero buf buf.length hz)

/-- The amended C6 on `[0,7,0]` (last non-zero index 1, stored length 2). -/
theorem trimmed_load_length_witness :
    AUDIO_LoadWav State.init (some ⟨22050, [0, 7, 0], 6⟩) "" true
      = some (Except.ok (0, ⟨[⟨22050, [0, 7, 0], 2⟩], State.init.channels⟩)) :=
  (trimmed_load_length State.init 22050 [0, 7, 0] 6 "" (by decide)).1 1 7 rfl (by decide)
    (by
      intro j h1 h2
      have hj : j = 2 := by
        simp only [List.length_cons, List.length_nil] at h2
        omega
      subst hj
      rfl)

/-! ## Facts about the control operations -/

theorem setChannel_same (st : State) (i : Fin NUM_CHANNELS) (ci : Channel) :
    (setChannel st i ci).channels i = ci := by
  simp [setChannel]

theorem setChannel_other (st : State) (i j : Fin NUM_CHANNELS) (ci : Channel) (h : j ≠ i) :
    (setChannel st i ci).channels j = st.channels j := by
  simp [setChannel, Function.update_noteq h]

theorem setChannel_loadedWavs (st : State) (i : Fin NUM_CHANNELS) (ci : Channel) :
    (setChannel st i ci).loadedWavs = st.loadedWavs := rfl

/-- C7 (stopLoop): on a channel that is playing and looping with cursor
`c ≤ loop_end ≤ end ≤ numSamples`, `AUDIO_StopLoop` changes nothing but the `loop` flag of
that channel; afterwards the next `end - c` calls of `getNextSample` return
`buffer[c], ..., buffer[end-1]` (past `loop_end`, without wrapping) and every call after
them returns 0 with the channel idle. -/
theorem stopLoop_plays_to_end (st : State) (chan : Int) (i : Fin NUM_CHANNELS) (w : Wav)
    (hc : chanIndex chan = some i)
    (hp : (st.channels i).playing = true) (_hl : (st.channels i).loop = true)
    (hw : (st.channels i).wav = some w)
    (h1 : (st.channels i).current ≤ (st.channels i).loop_end)
    (h2 : (st.channels i).loop_end ≤ (st.channels i).end_)
    (h3 : (st.channels i).end_ ≤ w.numSamples)
    (h4 : w.numSamples ≤ w.sampleData.length) (h32 : w.numSamples < 4294967296) :
    ∃ st1, AUDIO_StopLoop st chan = some st1 ∧
      st1.loadedWavs = st.loadedWavs ∧
      (∀ j, j ≠ i → st1.channels j = st.channels j) ∧
      st1.channels i = { st.channels i with loop := false } ∧
      ∀ m : Nat, ∃ c1,
        getNextSamples ((st.channels i).end_ - (st.channels i).current + m) (st1.channels i)
          = some ((w.sampleData.drop (st.channels i).current).take
                ((st.channels i).end_ - (st.channels i).current)
              ++ List.replicate m 0, c1) ∧
        (0 < m → c1.playing = false) := by
  refine ⟨setChannel st i { st.channels i with loop := false }, by simp [AUDIO_StopLoop, hc],
    rfl, fun j hj => setChannel_other st i j _ hj, setChannel_same st i _, fun m => ?_⟩
  rw [setChannel_same]
  exact getNextSamples_nonloop { st.channels i with loop := false } w m hp rfl hw
    (by show (st.channels i).current ≤ (st.channels i).end_; omega)
    (by show (st.channels i).end_ ≤ w.sampleData.length; omega)
    (by show (st.channels i).end_ < 4294967296; omega)

/-- C7 on channel 2 looping over `[1,3)` of `[5,0,3,0,7]` with the cursor at 2: after
`AUDIO_StopLoop` the calls return 3, 0, 7 and then 0. -/
theorem stopLoop_plays_to_end_witness :
    ∃ st1, AUDIO_StopLoop ⟨[⟨22050, [5, 0, 3, 0, 7], 5⟩],
        fun _ => ⟨some ⟨22050, [5, 0, 3, 0, 7], 5⟩, 2, true, true, 0, 5, 1, 3⟩⟩ 2 = some st1 ∧
      ∃ c1, getNextSamples 5 (st1.channels 2) = some ([3, 0, 7, 0, 0], c1) ∧
        c1.playing = false := by
  obtain ⟨st1, hs, _, _, _, hrun⟩ := stopLoop_plays_to_end
    ⟨[⟨22050, [5, 0, 3, 0, 7], 5⟩],
      fun _ => ⟨some ⟨22050, [5, 0, 3, 0, 7], 5⟩, 2, true, true, 0, 5, 1, 3⟩⟩ 2 2
    ⟨22050, [5, 0, 3, 0, 7], 5⟩ rfl rfl rfl rfl (by decide) (by decide) (by decide)
    (by decide) (by decide)
  obtain ⟨c1, hc1, hidle⟩ := hrun 2
  exact ⟨st1, hs, c1, hc1, hidle (by decide)⟩

/-- C10 (play is a hard takeover): for a valid handle and a valid channel, whatever the
channel held before, `AUDIO_Play(id, chan, loop)` leaves the channel exactly as
`{wav, playing = true, loop, current = 0, start = 0, end = numSamples, loop_start = 0,
loop_end = numSamples}` and leaves the other three channels and `loadedWavs` unchanged. -/
theorem play_takes_over (st : State) (id chan : Int) (loop : Bool) (w : Wav)
    (i : Fin NUM_CHANNELS) (hw : wavAt st id = some w) (hc : chanIndex chan = some i) :
    ∃ st1, AUDIO_Play st id chan loop = some st1 ∧
      st1.channels i =
        { wav := some w, playing := true, loop := loop,
          current := 0, start := 0, end_ := w.numSamples,
          loop_start := 0, loop_end := w.numSamples } ∧
      (∀ j, j ≠ i → st1.channels j = st.channels j) ∧
      st1.loadedWavs = st.loadedWavs :=
  ⟨_, AUDIO_Play_eq st id chan loop w i hw hc, setChannel_same st i _,
    fun j hj => setChannel_other st i j _ hj, rfl⟩

/-- C10 on a channel that was looping in the middle of another buffer. -/
theorem play_takes_over_witness :
    ∃ st1, AUDIO_Play ⟨[⟨22050, [5, 0, 3, 0], 4⟩, ⟨11025, [1, 2], 2⟩],
        fun _ => ⟨some ⟨22050, [5, 0, 3, 0], 4⟩, 3, true, true, 0, 4, 1, 4⟩⟩ 1 3 false
        = some st1 ∧
      st1.channels 3 = ⟨some ⟨11025, [1, 2], 2⟩, 0, false, true, 0, 2, 0, 2⟩ ∧
      (∀ j, j ≠ 3 → st1.channels j = ⟨some ⟨22050, [5, 0, 3, 0], 4⟩, 3, true, true, 0, 4, 1, 4⟩) ∧
      st1.loadedWavs = [⟨22050, [5, 0, 3, 0], 4⟩, ⟨11025, [1, 2], 2⟩] :=
  play_takes_over ⟨[⟨22050, [5, 0, 3, 0], 4⟩, ⟨11025, [1, 2], 2⟩],
    fun _ => ⟨some ⟨22050, [5, 0, 3, 0], 4⟩, 3, true, true, 0, 4, 1, 4⟩⟩ 1 3 false
    ⟨11025, [1, 2], 2⟩ 3 rfl rfl

/-! ## Facts about positions -/

theorem roundHalfEven_intCast (z : Int) : roundHalfEven (z : ℚ) = z := by
  simp [roundHalfEven]

theorem roundDouble_zero : roundDouble 0 = 0 := by
  simp [roundDouble]

theorem roundDouble_exact (m k : Int) (hm : |m| < 2 ^ 53) :
    roundDouble ((m : ℚ) * 2 ^ k) = (m : ℚ) * 2 ^ k := by
  by_cases hm0 : m = 0
  · subst hm0; simp [roundDouble]
  have h2k : (0 : ℚ) < 2 ^ k := zpow_pos (by norm_num) k
  have hx0 : (m : ℚ) * 2 ^ k ≠ 0 :=
    mul_ne_zero (Int.cast_ne_zero.mpr hm0) (ne_of_gt h2k)
  have habs : |(m : ℚ) * 2 ^ k| = (|m| : ℚ) * 2 ^ k := by
    rw [abs_mul, abs_of_pos h2k]
  have hlt : |(m : ℚ) * 2 ^ k| < ((2 : ℕ) : ℚ) ^ (53 + k) := by
    rw [habs, Nat.cast_ofNat, zpow_add₀ (by norm_num : (2 : ℚ) ≠ 0)]
    have : (|m| : ℚ) < 2 ^ (53 : ℤ) := by
      have h := (Int.cast_lt (R := ℚ)).mpr hm
      rw [Int.cast_abs] at h
      norm_num at h ⊢
      exact h
    exact mul_lt_mul_of_pos_right this h2k
  have hlog : Int.log 2 |(m : ℚ) * 2 ^ k| < 53 + k :=
    (Int.lt_zpow_iff_log_lt (by norm_num) (abs_pos.mpr hx0)).mp hlt
  unfold roundDouble
  rw [if_neg hx0]
  simp only
  generalize Int.log 2 |(m : ℚ) * 2 ^ k| = e at hlog
  obtain ⟨n, hn⟩ : ∃ n : ℕ, k - (e - 52) = (n : ℤ) := ⟨(k - (e - 52)).toNat, by omega⟩
  have hq : (m : ℚ) * 2 ^ k / 2 ^ (e - 52) = ((m * 2 ^ n : ℤ) : ℚ) := by
    rw [mul_div_assoc, ← zpow_sub₀ (by norm_num : (2 : ℚ) ≠ 0), hn]
    push_cast
    rw [zpow_natCast]
  rw [hq, roundHalfEven_intCast]
  push_cast
  rw [mul_assoc, ← zpow_natCast, ← zpow_add₀ (by norm_num : (2 : ℚ) ≠ 0), ← hn]
  congr 2
  omega

theorem truncDouble_div (a : Int) (ha : 0 ≤ a) : truncDouble ((a : ℚ) / 128) = a / 128 := by
  have h0 : (0 : ℚ) ≤ (a : ℚ) / 128 := div_nonneg (Int.cast_nonneg.mpr ha) (by norm_num)
  unfold truncDouble
  rw [if_pos h0]
  have := Rat.floor_intCast_div_natCast a 128
  simpa using this

theorem roundDouble_intCast (m : Int) (hm : |m| < 2 ^ 53) : roundDouble (m : ℚ) = m := by
  have h := roundDouble_exact m 0 hm
  simpa using h

theorem roundDouble_div128 (m : Int) (hm : |m| < 2 ^ 53) :
    roundDouble ((m : ℚ) / 128) = (m : ℚ) / 128 := by
  have h := roundDouble_exact m (-7) hm
  have e : (2 : ℚ) ^ (-7 : ℤ) = 1 / 128 := by norm_num [zpow_neg]
  rw [e] at h
  simpa [mul_one_div] using h

theorem pos2sample_product (pos frequency : Int) (h0 : 0 ≤ pos) (h1 : 0 ≤ frequency)
    (h : pos * frequency < 2 ^ 53) :
    roundDouble (roundDouble pos * roundDouble (roundDouble frequency / 128))
      = ((pos * frequency : Int) : ℚ) / 128 := by
  rcases eq_or_lt_of_le h0 with hp | hp
  · subst hp; simp [roundDouble_zero]
  rcases eq_or_lt_of_le h1 with hf | hf
  · subst hf; simp [roundDouble_zero]
  have hpos : |pos| < 2 ^ 53 := by
    rw [abs_of_nonneg h0]
    calc pos = pos * 1 := (mul_one pos).symm
      _ ≤ pos * frequency := by apply mul_le_mul_of_nonneg_left _ h0; omega
      _ < 2 ^ 53 := h
  have hfreq : |frequency| < 2 ^ 53 := by
    rw [abs_of_nonneg h1]
    calc frequency = 1 * frequency := (one_mul frequency).symm
      _ ≤ pos * frequency := by apply mul_le_mul_of_nonneg_right _ h1; omega
      _ < 2 ^ 53 := h
  have hprod : |pos * frequency| < 2 ^ 53 := by
    rw [abs_of_nonneg (mul_nonneg h0 h1)]; exact h
  rw [roundDouble_intCast pos hpos, roundDouble_intCast frequency hfreq,
    roundDouble_div128 frequency hfreq]
  have := roundDouble_div128 (pos * frequency) hprod
  rw [← this]
  congr 1
  push_cast
  ring

theorem pos2sample_of_inRange (oor : ℚ → Nat) (pos frequency : Int) (h0 : 0 ≤ pos)
    (h1 : 0 ≤ frequency) (h : pos * frequency / 128 < 4294967296) :
    pos2sample oor pos frequency = (pos * frequency / 128).toNat := by
  have hnn : 0 ≤ pos * frequency := mul_nonneg h0 h1
  have hlt : pos * frequency < 2 ^ 53 := by
    have : pos * frequency < 549755813888 := by omega
    calc pos * frequency < 549755813888 := this
      _ < 2 ^ 53 := by norm_num
  unfold pos2sample
  simp only
  rw [pos2sample_product pos frequency h0 h1 hlt, truncDouble_div _ hnn]
  rw [if_pos ⟨by omega, h⟩]

/-- C8 (position conversion): for non-negative `pos` and `freq` with
`pos * freq / 128 < 2^32` the conversion is exact, `pos2sample pos freq = ⌊pos * freq / 128⌋`,
whatever the machine does with conversions out of range; in particular
`pos2sample 128 freq = freq` for every non-negative `freq` below `2^32` (every non-negative
`int`). -/
theorem pos2sample_floor (oor : ℚ → Nat) (pos freq : Int) (h0 : 0 ≤ pos) (h1 : 0 ≤ freq)
    (h : pos * freq / 128 < 4294967296) :
    (pos2sample oor pos freq : Int) = pos * freq / 128 ∧
      (freq < 4294967296 → (pos2sample oor 128 freq : Int) = freq) := by
  constructor
  · rw [pos2sample_of_inRange oor pos freq h0 h1 h]
    exact Int.toNat_of_nonneg (Int.ediv_nonneg (mul_nonneg h0 h1) (by decide))
  · intro hf
    have e : 128 * freq / 128 = freq := by omega
    rw [pos2sample_of_inRange oor 128 freq (by decide) h1 (by rw [e]; exact hf), e]
    exact Int.toNat_of_nonneg h1

/-- C8 at position 64 and rate 256 (half a second is 128 samples), and one second at
rate 256. -/
theorem pos2sample_floor_witness :
    (pos2sample (fun _ => 0) 64 256 : Int) = 128 ∧
      (pos2sample (fun _ => 0) 128 256 : Int) = 256 :=
  have h := pos2sample_floor (fun _ => 0) 64 256 (by decide) (by decide) (by decide)
  ⟨h.1.trans (by decide), h.2 (by decide)⟩

theorem AUDIO_Play_region_eq (oor : ℚ → Nat) (st : State) (id chan ls le : Int) (w : Wav)
    (i : Fin NUM_CHANNELS) (hw : wavAt st id = some w) (hc : chanIndex chan = some i) :
    AUDIO_Play_region oor st id chan ls le = some (setChannel st i
      { wav := some w, loop := true, playing := true,
        current := 0, start := 0, end_ := w.numSamples,
        loop_start := min (pos2sample oor ls w.freq) w.numSamples,
        loop_end := min (pos2sample oor le w.freq) w.numSamples }) := by
  simp [AUDIO_Play_region, hw, hc]

/-- C9 (play with a loop region): for a valid handle and channel and non-negative positions
`ls` and `le`, `AUDIO_Play(id, chan, ls, le)` leaves the channel with `playing` and `loop`
set, `current = 0`, `start = 0`, `end = numSamples`,
`loop_start = min (pos2sample ls freq) end` and `loop_end = min (pos2sample le freq) end`,
so both loop bounds are at most `end`; where a position converts within `uint32_t` its
bound is `min ⌊pos * freq / 128⌋ end`. -/
theorem play_region_sets_loop (oor : ℚ → Nat) (st : State) (id chan ls le : Int) (w : Wav)
    (i : Fin NUM_CHANNELS) (hw : wavAt st id = some w) (hc : chanIndex chan = some i)
    (hls : 0 ≤ ls) (hle : 0 ≤ le) :
    ∃ st1, AUDIO_Play_region oor st id chan ls le = some st1 ∧
      st1.channels i =
        { wav := some w, playing := true, loop := true,
          current := 0, start := 0, end_ := w.numSamples,
          loop_start := min (pos2sample oor ls w.freq) w.numSamples,
          loop_end := min (pos2sample oor le w.freq) w.numSamples } ∧
      (st1.channels i).loop_start ≤ (st1.channels i).end_ ∧
      (st1.channels i).loop_end ≤ (st1.channels i).end_ ∧
      (0 ≤ w.freq → ls * w.freq / 128 < 4294967296 →
        (st1.channels i).loop_start = min (ls * w.freq / 128).toNat w.numSamples) ∧
      (0 ≤ w.freq → le * w.freq / 128 < 4294967296 →
        (st1.channels i).loop_end = min (le * w.freq / 128).toNat w.numSamples) := by
  refine ⟨_, AUDIO_Play_region_eq oor st id chan ls le w i hw hc, setChannel_same st i _,
    ?_, ?_, ?_, ?_⟩
  · rw [setChannel_same]; exact Nat.min_le_right _ _
  · rw [setChannel_same]; exact Nat.min_le_right _ _
  · intro hf h
    rw [setChannel_same]
    show min (pos2sample oor ls w.freq) w.numSamples = _
    rw [pos2sample_of_inRange oor ls w.freq hls hf h]
  · intro hf h
    rw [setChannel_same]
    show min (pos2sample oor le w.freq) w.numSamples = _
    rw [pos2sample_of_inRange oor le w.freq hle hf h]

/-- The scenario of C9: positions 0 and 64 at sample rate 256 on a buffer of 130 samples give
`loop_start = 0` and `loop_end = 128`; after 128 calls the cursor is at 128, and call 129
wraps it to 0, returns `buffer[0]` and leaves it at 1. -/
theorem play_region_sets_loop_witness :
    ∃ st1, AUDIO_Play_region (fun _ => 0)
        ⟨[⟨256, List.replicate 130 7, 130⟩], fun _ => Channel.init⟩ 0 0 0 64 = some st1 ∧
      (st1.channels 0).loop_start = 0 ∧ (st1.channels 0).loop_end = 128 ∧
      (∃ outs c1, getNextSamples 128 (st1.channels 0) = some (outs, c1) ∧ c1.current = 128) ∧
      (∃ outs c1, getNextSamples 129 (st1.channels 0) = some (outs, c1) ∧ c1.current = 1 ∧
        outs[128]? = (List.replicate 130 (7 : Int))[0]?) := by
  obtain ⟨st1, hplay, hch, -, -, hs, he⟩ := play_region_sets_loop (fun _ => 0)
    ⟨[⟨256, List.replicate 130 7, 130⟩], fun _ => Channel.init⟩ 0 0 0 64
    ⟨256, List.replicate 130 7, 130⟩ 0 rfl rfl (by decide) (by decide)
  have hs1 : (st1.channels 0).loop_start = 0 := (hs (by decide) (by decide)).trans (by decide)
  have he1 : (st1.channels 0).loop_end = 128 := (he (by decide) (by decide)).trans (by decide)
  have hp : (st1.channels 0).playing = true := by rw [hch]
  have hl : (st1.channels 0).loop = true := by rw [hch]
  have hwv : (st1.channels 0).wav = some ⟨256, List.replicate 130 7, 130⟩ := by rw [hch]
  have h0 : (st1.channels 0).current = 0 := by rw [hch]
  have hlen : (List.replicate 130 (7 : Int)).length = 130 := List.length_replicate 130 7
  have hrun := getNextSamples_loop (st1.channels 0) ⟨256, List.replicate 130 7, 130⟩ hp hl hwv
    h0 (by rw [hs1, he1]; decide) (by rw [he1]; show 128 ≤ (List.replicate 130 (7 : Int)).length
                                      rw [hlen]; decide)
    (by rw [he1]; decide)
  refine ⟨st1, hplay, hs1, he1, ?_, ?_⟩
  · obtain ⟨outs, h1, -, -⟩ := hrun 128
    refine ⟨outs, _, h1, ?_⟩
    simp [he1]
  · obtain ⟨outs, h1, -, h3⟩ := hrun 129
    refine ⟨outs, _, h1, ?_, ?_⟩
    · simp [he1, hs1]
    · have h4 := h3 128 (by decide)
      rw [he1, hs1] at h4
      exact h4

/-! ## Idle channels -/

/-- C11 (idle channels are silent and inert): `getNextSample` on a channel with `playing`
false returns 0 and leaves the channel as it is, whatever its other fields; `AUDIO_Stop`
sets the `playing` flag of its channel to false and changes nothing else, whatever the
cursor; and after it `AUDIO_isPlaying` is false and any number of `getNextSample` calls on
that channel return 0 and leave it idle. -/
theorem idle_channel_is_silent (st : State) (chan : Int) (i : Fin NUM_CHANNELS) (c : Channel)
    (hc : chanIndex chan = some i) (hidle : c.playing = false) :
    getNextSample c = some (0, c) ∧
    ∃ st1, AUDIO_Stop st chan = some st1 ∧
      st1.channels i = { st.channels i with playing := false } ∧
      (∀ j, j ≠ i → st1.channels j = st.channels j) ∧
      st1.loadedWavs = st.loadedWavs ∧
      AUDIO_isPlaying st1 chan = some false ∧
      ∀ m : Nat, getNextSamples m (st1.channels i)
        = some (List.replicate m 0, st1.channels i) := by
  refine ⟨getNextSample_idle c hidle, setChannel st i { st.channels i with playing := false },
    by simp [AUDIO_Stop, hc], setChannel_same st i _, fun j hj => setChannel_other st i j _ hj,
    rfl, ?_, fun m => ?_⟩
  · simp [AUDIO_isPlaying, hc, setChannel_same]
  · exact getNextSamples_idle m _ (by rw [setChannel_same])

/-- C11 on a channel stopped in the middle of a looping buffer. -/
theorem idle_channel_is_silent_witness :
    getNextSample ⟨some ⟨22050, [5, 0, 3, 0], 4⟩, 2, true, false, 0, 4, 1, 3⟩
      = some (0, ⟨some ⟨22050, [5, 0, 3, 0], 4⟩, 2, true, false, 0, 4, 1, 3⟩) ∧
    ∃ st1, AUDIO_Stop ⟨[⟨22050, [5, 0, 3, 0], 4⟩],
        fun _ => ⟨some ⟨22050, [5, 0, 3, 0], 4⟩, 2, true, true, 0, 4, 1, 3⟩⟩ 1 = some st1 ∧
      st1.channels 1 = ⟨some ⟨22050, [5, 0, 3, 0], 4⟩, 2, true, false, 0, 4, 1, 3⟩ ∧
      AUDIO_isPlaying st1 1 = some false ∧
      getNextSamples 3 (st1.channels 1) = some ([0, 0, 0], st1.channels 1) := by
  obtain ⟨h1, st1, h2, h3, -, -, h4, h5⟩ := idle_channel_is_silent
    ⟨[⟨22050, [5, 0, 3, 0], 4⟩],
      fun _ => ⟨some ⟨22050, [5, 0, 3, 0], 4⟩, 2, true, true, 0, 4, 1, 3⟩⟩ 1 1
    ⟨some ⟨22050, [5, 0, 3, 0], 4⟩, 2, true, false, 0, 4, 1, 3⟩ rfl rfl
  exact ⟨h1, st1, h2, h3, h4, h5 3⟩

/-! ## The accumulator of the mixer -/

/-- C17 (no intermediate overflow in the mix): when the four calls of `getNextSample` return
16-bit samples, each halved sample lies in `[-16384, 16383]`, the accumulator of the inner
loop after one, two, three and four channels is the exact sum of the halves so far, and each
of these sums lies in `[-65536, 65532]`, inside `int32_t`; the last one is what `clamp`
gets. -/
theorem mix_has_no_overflow (channels cs : Fin NUM_CHANNELS → Channel)
    (s : Fin NUM_CHANNELS → Int)
    (hget : ∀ i, getNextSample (channels i) = some (s i, cs i))
    (hrange : ∀ i, INT16_MIN ≤ s i ∧ s i ≤ INT16_MAX) :
    (∀ i, -16384 ≤ Int.tdiv (s i) 2 ∧ Int.tdiv (s i) 2 ≤ 16383) ∧
    (∃ c1, mixLoop [0] 0 channels = some (Int.tdiv (s 0) 2, c1)) ∧
    (∃ c2, mixLoop [0, 1] 0 channels = some (Int.tdiv (s 0) 2 + Int.tdiv (s 1) 2, c2)) ∧
    (∃ c3, mixLoop [0, 1, 2] 0 channels
      = some (Int.tdiv (s 0) 2 + Int.tdiv (s 1) 2 + Int.tdiv (s 2) 2, c3)) ∧
    mixLoop (List.finRange NUM_CHANNELS) 0 channels
      = some (Int.tdiv (s 0) 2 + Int.tdiv (s 1) 2 + Int.tdiv (s 2) 2 + Int.tdiv (s 3) 2,
          cs) ∧
    (-65536 ≤ Int.tdiv (s 0) 2 ∧ Int.tdiv (s 0) 2 ≤ 65532) ∧
    (-65536 ≤ Int.tdiv (s 0) 2 + Int.tdiv (s 1) 2 ∧
      Int.tdiv (s 0) 2 + Int.tdiv (s 1) 2 ≤ 65532) ∧
    (-65536 ≤ Int.tdiv (s 0) 2 + Int.tdiv (s 1) 2 + Int.tdiv (s 2) 2 ∧
      Int.tdiv (s 0) 2 + Int.tdiv (s 1) 2 + Int.tdiv (s 2) 2 ≤ 65532) ∧
    (-65536 ≤ Int.tdiv (s 0) 2 + Int.tdiv (s 1) 2 + Int.tdiv (s 2) 2 + Int.tdiv (s 3) 2 ∧
      Int.tdiv (s 0) 2 + Int.tdiv (s 1) 2 + Int.tdiv (s 2) 2 + Int.tdiv (s 3) 2 ≤ 65532) := by
  have b0 := tdiv_two_bounds (s 0) (hrange 0).1 (hrange 0).2
  have b1 := tdiv_two_bounds (s 1) (hrange 1).1 (hrange 1).2
  have b2 := tdiv_two_bounds (s 2) (hrange 2).1 (hrange 2).2
  have b3 := tdiv_two_bounds (s 3) (hrange 3).1 (hrange 3).2
  have e0 : toInt32 (0 + Int.tdiv (s 0) 2) = Int.tdiv (s 0) 2 := by
    rw [Int.zero_add]; exact toInt32_of_range _ (by omega) (by omega)
  have e1 : toInt32 (Int.tdiv (s 0) 2 + Int.tdiv (s 1) 2)
      = Int.tdiv (s 0) 2 + Int.tdiv (s 1) 2 :=
    toInt32_of_range _ (by omega) (by omega)
  have e2 : toInt32 (Int.tdiv (s 0) 2 + Int.tdiv (s 1) 2 + Int.tdiv (s 2) 2)
      = Int.tdiv (s 0) 2 + Int.tdiv (s 1) 2 + Int.tdiv (s 2) 2 :=
    toInt32_of_range _ (by omega) (by omega)
  have u1 : Function.update channels 0 (cs 0) 1 = channels 1 :=
    Function.update_noteq (by decide) _ _
  have u2 : Function.update (Function.update channels 0 (cs 0)) 1 (cs 1) 2 = channels 2 := by
    rw [Function.update_noteq (by decide), Function.update_noteq (by decide)]
  refine ⟨fun i => tdiv_two_bounds (s i) (hrange i).1 (hrange i).2,
    ⟨Function.update channels 0 (cs 0), ?_⟩,
    ⟨Function.update (Function.update channels 0 (cs 0)) 1 (cs 1), ?_⟩,
    ⟨Function.update (Function.update (Function.update channels 0 (cs 0)) 1 (cs 1))
      2 (cs 2), ?_⟩,
    mixLoop_eq channels cs s hget hrange, by omega, by omega, by omega, by omega⟩
  · simp only [mixLoop, hget 0, e0]
  · simp only [mixLoop, hget 0, e0, u1, hget 1, e1]
  · simp only [mixLoop, hget 0, e0, u1, hget 1, e1, u2, hget 2, e2]

/-- C17 on four channels about to return -32768, the lowest sums there are. -/
theorem mix_has_no_overflow_witness :
    mixLoop (List.finRange NUM_CHANNELS) 0
        (fun _ => ⟨some ⟨22050, [-32768], 1⟩, 0, false, true, 0, 1, 0, 1⟩)
      = some (-65536, fun _ => ⟨some ⟨22050, [-32768], 1⟩, 1, false, true, 0, 1, 0, 1⟩) :=
  (mix_has_no_overflow
    (fun _ => ⟨some ⟨22050, [-32768], 1⟩, 0, false, true, 0, 1, 0, 1⟩)
    (fun _ => ⟨some ⟨22050, [-32768], 1⟩, 1, false, true, 0, 1, 0, 1⟩)
    (fun _ => -32768) (by intro _; rfl)
    (by intro _; show INT16_MIN ≤ -32768 ∧ -32768 ≤ INT16_MAX; decide)).2.2.2.2.1.trans
    (by decide)

/-! ## Chunks of the output stream -/

/-- Running `a + b` rounds of the outer loop is running `a` rounds and then `b` rounds. -/
theorem callbackLoop_add (a b : Nat) (channels : Fin NUM_CHANNELS → Channel) :
    callbackLoop (a + b) channels =
      (callbackLoop a channels).bind fun p =>
        (callbackLoop b p.2).map fun q => (p.1 ++ q.1, q.2) := by
  induction a generalizing channels with
  | zero =>
    simp only [Nat.zero_add, callbackLoop, Option.some_bind, List.nil_append]
    cases callbackLoop b channels <;> simp
  | succ k ih =>
    rw [Nat.succ_add]
    simp only [callbackLoop]
    cases h1 : mixLoop (List.finRange NUM_CHANNELS) 0 channels with
    | none => simp
    | some r =>
      obtain ⟨sum, c1⟩ := r
      simp only [ih c1]
      cases h2 : callbackLoop k c1 with
      | none => simp
      | some r2 =>
        obtain ⟨out, c2⟩ := r2
        simp only [Option.some_bind]
        cases h3 : callbackLoop b c2 <;> simp

theorem callback_even (n : Nat) (channels : Fin NUM_CHANNELS → Channel) :
    callback (2 * (n : Int)) channels = callbackLoop n channels := by
  unfold callback
  have h : (Int.tdiv (2 * (n : Int)) 2).toNat = n := by
    rw [Int.tdiv_eq_ediv (by omega) (by decide)]
    omega
  rw [h]

/-- C19 (the mixed stream does not depend on the chunking): for every state of the four
channels and all sample counts `a` and `b`, the callback for `2 * (a + b)` bytes does what
the callback for `2 * a` bytes followed by the callback for `2 * b` bytes does: the output
is the two outputs one after the other and the final channels are the same (and the one
reads outside a buffer exactly when the other does). -/
theorem callback_chunking (a b : Nat) (channels : Fin NUM_CHANNELS → Channel) :
    callback (2 * ((a : Int) + (b : Int))) channels =
      (callback (2 * (a : Int)) channels).bind fun p =>
        (callback (2 * (b : Int)) p.2).map fun q => (p.1 ++ q.1, q.2) := by
  have h := callback_even (a + b) channels
  rw [Nat.cast_add] at h
  rw [h, callback_even a channels, callbackLoop_add a b channels]
  congr 1
  funext p
  rw [callback_even b p.2]

/-! ## Reads inside the buffer -/

/-- The index `readIndex` gives is the index `getNextSample` reads: when there is one, the
call returns the sample at that index and leaves the cursor one past it (and is a read
outside the buffer when the index is not in it). -/
theorem getNextSample_of_readIndex (c : Channel) (i : Nat) (h : readIndex c = some i) :
    getNextSample c = readAndAdvance { c with current := i } := by
  unfold readIndex at h
  unfold getNextSample
  by_cases hp : c.playing = true
  · simp only [hp, Bool.not_true, Bool.false_eq_true, if_false] at h ⊢
    by_cases hb : c.current ≥ (if c.loop then c.loop_end else c.end_)
    · simp only [hb, if_true] at h ⊢
      by_cases hl : c.loop = true
      · simp only [hl, if_true, Option.some.injEq] at h ⊢
        rw [h]
      · simp [hl] at h
    · simp only [hb, if_false, Option.some.injEq] at h ⊢
      rw [← h]
      cases c
      simp only at hp
      subst hp
      rfl
  · simp [hp] at h

/-- When `readIndex` gives no index, the call reads nothing and returns 0. -/
theorem getNextSample_of_readIndex_none (c : Channel) (h : readIndex c = none) :
    ∃ c1, getNextSample c = some (0, c1) := by
  unfold readIndex at h
  unfold getNextSample
  by_cases hp : c.playing = true
  · simp only [hp, Bool.not_true, Bool.false_eq_true, if_false] at h ⊢
    by_cases hb : c.current ≥ (if c.loop then c.loop_end else c.end_)
    · simp only [hb, if_true] at h ⊢
      by_cases hl : c.loop = true
      · simp [hl] at h
      · simp only [hl, Bool.false_eq_true, if_false]
        exact ⟨_, rfl⟩
    · simp [hb] at h
  · simp only [Bool.not_eq_true] at hp
    simp only [hp, Bool.not_false, if_true]
    exact ⟨_, rfl⟩

/-- One call on a channel within the conditions: it returns, any read is below
`numSamples`, and the channel is within the conditions again. -/
theorem getNextSample_inBounds (c : Channel) (w : Wav) (hw : c.wav = some w)
    (hin : c.inBounds w) (hlen : w.numSamples ≤ w.sampleData.length)
    (h32 : w.numSamples < 4294967296) :
    ∃ s c1, getNextSample c = some (s, c1) ∧ c1.wav = some w ∧ c1.inBounds w ∧
      ∀ i, readIndex c = some i → i < w.numSamples ∧ w.sampleData[i]? = some s := by
  obtain ⟨h1, h2, h3⟩ := hin
  by_cases hp : c.playing = true
  · by_cases hl : c.loop = true
    · obtain ⟨l1, l2, l3⟩ := h3 hl
      rcases Nat.lt_or_ge c.current c.loop_end with hlt | hge
      · obtain ⟨s, hs, hg⟩ := getNextSample_below c w hp hw
          (by simp only [Channel.bound, hl, if_true]; exact hlt)
          (by simp only [Channel.bound, hl, if_true]; omega)
          (by simp only [Channel.bound, hl, if_true]; omega)
        refine ⟨s, _, hg, hw, ⟨h1, by show c.current + 1 ≤ c.end_; omega,
          fun _ => ⟨l1, l2, by show c.current + 1 ≤ c.loop_end; omega⟩⟩, ?_⟩
        intro i hi
        have hnb : ¬ c.current ≥ c.loop_end := by omega
        simp only [readIndex, hp, hl, Bool.not_true, Bool.false_eq_true, if_false, if_true,
          hnb, Option.some.injEq] at hi
        subst hi
        exact ⟨by omega, hs⟩
      · obtain ⟨s, hs, hg⟩ := getNextSample_wrap c w hp hl hw hge (by omega) (by omega)
        refine ⟨s, _, hg, hw, ⟨h1, by show c.loop_start + 1 ≤ c.end_; omega,
          fun _ => ⟨l1, l2, by show c.loop_start + 1 ≤ c.loop_end; omega⟩⟩, ?_⟩
        intro i hi
        simp only [readIndex, hp, hl, Bool.not_true, Bool.false_eq_true, if_false, if_true,
          hge, ge_iff_le, Option.some.injEq] at hi
        subst hi
        exact ⟨by omega, hs⟩
    · have hl0 : c.loop = false := by simpa using hl
      rcases Nat.lt_or_ge c.current c.end_ with hlt | hge
      · obtain ⟨s, hs, hg⟩ := getNextSample_below c w hp hw
          (by simp only [Channel.bound, hl0, Bool.false_eq_true, if_false]; exact hlt)
          (by simp only [Channel.bound, hl0, Bool.false_eq_true, if_false]; omega)
          (by simp only [Channel.bound, hl0, Bool.false_eq_true, if_false]; omega)
        refine ⟨s, _, hg, hw, ⟨h1, by show c.current + 1 ≤ c.end_; omega,
          fun h => absurd h hl⟩, ?_⟩
        intro i hi
        have hnb : ¬ c.current ≥ c.end_ := by omega
        simp only [readIndex, hp, hl0, Bool.not_true, Bool.false_eq_true, if_false,
          hnb, Option.some.injEq] at hi
        subst hi
        exact ⟨by omega, hs⟩
      · refine ⟨0, _, getNextSample_at_end c hp hl0 hge, hw, ⟨h1, h2, h3⟩, ?_⟩
        intro i hi
        simp [readIndex, hp, hl0, hge] at hi
  · have hp0 : c.playing = false := by simpa using hp
    refine ⟨0, c, getNextSample_idle c hp0, hw, ⟨h1, h2, h3⟩, ?_⟩
    intro i hi
    simp [readIndex, hp0] at hi

/-- Any number of calls on a channel within the conditions: they return and leave the
channel within the conditions. -/
theorem getNextSamples_inBounds (n : Nat) (c : Channel) (w : Wav) (hw : c.wav = some w)
    (hin : c.inBounds w) (hlen : w.numSamples ≤ w.sampleData.length)
    (h32 : w.numSamples < 4294967296) :
    ∃ outs cn, getNextSamples n c = some (outs, cn) ∧ cn.wav = some w ∧ cn.inBounds w := by
  induction n generalizing c with
  | zero => exact ⟨[], c, rfl, hw, hin⟩
  | succ k ih =>
    obtain ⟨s, c1, hg, hw1, hin1, -⟩ := getNextSample_inBounds c w hw hin hlen h32
    obtain ⟨outs, cn, hrun, hwn, hinn⟩ := ih c1 hw1 hin1
    exact ⟨s :: outs, cn, by simp only [getNextSamples, hg, hrun], hwn, hinn⟩

/-- C18 (in-bounds reads): for a channel on the buffer `w` with `end ≤ numSamples`,
`current ≤ end` and, when `loop` is set, `loop_start < loop_end ≤ end` and
`current ≤ loop_end`: a call of `getNextSample` returns, the index it reads (if it reads)
is below `numSamples`, and the channel after the call, after `AUDIO_Stop` and after
`AUDIO_StopLoop` satisfies the conditions again; so any number of calls return and each of
them reads, if at all, below `numSamples`. -/
theorem reads_stay_in_bounds (st : State) (chan : Int) (i : Fin NUM_CHANNELS) (w : Wav)
    (hc : chanIndex chan = some i) (hw : (st.channels i).wav = some w)
    (hin : (st.channels i).inBounds w) (hlen : w.numSamples ≤ w.sampleData.length)
    (h32 : w.numSamples < 4294967296) :
    (∃ s c1, getNextSample (st.channels i) = some (s, c1) ∧ c1.inBounds w ∧
      ∀ k, readIndex (st.channels i) = some k →
        k < w.numSamples ∧ w.sampleData[k]? = some s) ∧
    (∃ st1, AUDIO_Stop st chan = some st1 ∧ (st1.channels i).inBounds w) ∧
    (∃ st1, AUDIO_StopLoop st chan = some st1 ∧ (st1.channels i).inBounds w) ∧
    ∀ n : Nat, ∃ outs cn, getNextSamples n (st.channels i) = some (outs, cn) ∧
      cn.inBounds w ∧ ∀ k, readIndex cn = some k → k < w.numSamples := by
  obtain ⟨h1, h2, h3⟩ := hin
  refine ⟨?_, ?_, ?_, fun n => ?_⟩
  · obtain ⟨s, c1, hg, -, hin1, hr⟩ :=
      getNextSample_inBounds (st.channels i) w hw ⟨h1, h2, h3⟩ hlen h32
    exact ⟨s, c1, hg, hin1, hr⟩
  · refine ⟨setChannel st i { st.channels i with playing := false },
      by simp [AUDIO_Stop, hc], ?_⟩
    rw [setChannel_same]
    exact ⟨h1, h2, h3⟩
  · refine ⟨setChannel st i { st.channels i with loop := false },
      by simp [AUDIO_StopLoop, hc], ?_⟩
    rw [setChannel_same]
    exact ⟨h1, h2, fun h => by cases h⟩
  · obtain ⟨outs, cn, hrun, hwn, hinn⟩ :=
      getNextSamples_inBounds n (st.channels i) w hw ⟨h1, h2, h3⟩ hlen h32
    refine ⟨outs, cn, hrun, hinn, fun k hk => ?_⟩
    obtain ⟨_, _, _, _, _, hr⟩ := getNextSample_inBounds cn w hwn hinn hlen h32
    exact (hr k hk).1

/-- C18 on channel 0 looping over `[1,3)` of `[5,0,3,0,7]` with the cursor at the loop end:
the call wraps and reads index 1. -/
theorem reads_stay_in_bounds_witness :
    ∃ s c1, getNextSample ⟨some ⟨22050, [5, 0, 3, 0, 7], 5⟩, 3, true, true, 0, 5, 1, 3⟩
        = some (s, c1) ∧
      c1.inBounds ⟨22050, [5, 0, 3, 0, 7], 5⟩ ∧
      ∀ k, readIndex ⟨some ⟨22050, [5, 0, 3, 0, 7], 5⟩, 3, true, true, 0, 5, 1, 3⟩ = some k →
        k < 5 ∧ ([5, 0, 3, 0, 7] : List Int)[k]? = some s :=
  (reads_stay_in_bounds
    ⟨[⟨22050, [5, 0, 3, 0, 7], 5⟩],
      fun _ => ⟨some ⟨22050, [5, 0, 3, 0, 7], 5⟩, 3, true, true, 0, 5, 1, 3⟩⟩ 0 0
    ⟨22050, [5, 0, 3, 0, 7], 5⟩ rfl rfl (by decide) (by decide) (by decide)).1

/-! ## Loads and the store -/

/-- The two renderings of `AUDIO_LoadWav` agree: the first is the second with the state
dropped from a throwing call. -/
theorem AUDIO_LoadWav_eq_globals (st : State) (loaded : Option Wav) (err : String)
    (trim : Bool) :
    AUDIO_LoadWav st loaded err trim =
      (AUDIO_LoadWav_globals st loaded err trim).map fun r =>
        match r.1 with
        | Except.error msg => Except.error msg
        | Except.ok handle => Except.ok (handle, r.2) := by
  cases loaded with
  | none => rfl
  | some wav0 =>
    unfold AUDIO_LoadWav AUDIO_LoadWav_globals
    simp only
    cases trim with
    | false => rfl
    | true =>
      simp only [if_true]
      cases trim_sample wav0.sampleData (wav0.numSamples / 2) <;> rfl

/-- What a load whose decoding succeeded does, with the sample count it stores. -/
theorem AUDIO_LoadWav_some (st : State) (wav0 : Wav) (err : String) (trim : Bool) (m : Nat)
    (hm : (if trim then trim_sample wav0.sampleData (wav0.numSamples / 2)
      else some (wav0.numSamples / 2)) = some m) :
    AUDIO_LoadWav st (some wav0) err trim
      = some (Except.ok ((st.loadedWavs.length : Int),
          { st with loadedWavs := st.loadedWavs ++ [{ wav0 with numSamples := m }] })) := by
  cases trim with
  | false =>
    simp only [Bool.false_eq_true, if_false, Option.some.injEq] at hm
    subst hm
    simp [AUDIO_LoadWav]
  | true =>
    simp only [if_true] at hm
    simp [AUDIO_LoadWav, hm]

/-- C14 (handles are indices of an append-only store): a load whose decoding succeeded (the
buffer holding the `numSamples / 2` samples of its byte length) on a store of `n` buffers
returns the handle `n` and leaves a store of `n + 1` buffers, entry `n` being the loaded
buffer with its sample count (`numSamples / 2`, or what `trim_sample` gives); the entries
below `n`, every handle valid before, and the four channels are unchanged. -/
theorem load_appends (st : State) (wav0 : Wav) (err : String) (trim : Bool)
    (hlen : wav0.numSamples / 2 ≤ wav0.sampleData.length) :
    ∃ m st1,
      (trim = false → m = wav0.numSamples / 2) ∧
      (trim = true → trim_sample wav0.sampleData (wav0.numSamples / 2) = some m) ∧
      AUDIO_LoadWav st (some wav0) err trim
        = some (Except.ok ((st.loadedWavs.length : Int), st1)) ∧
      st1.loadedWavs.length = st.loadedWavs.length + 1 ∧
      st1.loadedWavs[st.loadedWavs.length]? = some { wav0 with numSamples := m } ∧
      (∀ k, k < st.loadedWavs.length → st1.loadedWavs[k]? = st.loadedWavs[k]?) ∧
      (∀ id w, wavAt st id = some w → wavAt st1 id = some w) ∧
      st1.channels = st.channels := by
  obtain ⟨m, hm, hfalse, htrue⟩ : ∃ m,
      (if trim then trim_sample wav0.sampleData (wav0.numSamples / 2)
        else some (wav0.numSamples / 2)) = some m ∧
      (trim = false → m = wav0.numSamples / 2) ∧
      (trim = true → trim_sample wav0.sampleData (wav0.numSamples / 2) = some m) := by
    cases trim with
    | false => exact ⟨_, rfl, fun _ => rfl, fun h => by cases h⟩
    | true =>
      obtain ⟨m, hm, -⟩ := trim_sample_total wav0.sampleData (wav0.numSamples / 2) hlen
      exact ⟨m, by simpa using hm, fun h => Bool.noConfusion h, fun _ => hm⟩
  refine ⟨m, { st with loadedWavs := st.loadedWavs ++ [{ wav0 with numSamples := m }] },
    hfalse, htrue, AUDIO_LoadWav_some st wav0 err trim m hm, by simp, by simp, ?_, ?_, rfl⟩
  · intro k hk
    exact List.getElem?_append_left hk
  · intro id w hid
    unfold wavAt at hid ⊢
    split at hid
    · rename_i h0
      rw [if_pos h0]
      have hk : id.toNat < st.loadedWavs.length := by
        rcases Nat.lt_or_ge id.toNat st.loadedWavs.length with h | h
        · exact h
        · rw [List.getElem?_eq_none h] at hid
          cases hid
      show (st.loadedWavs ++ [_])[id.toNat]? = some w
      rw [List.getElem?_append_left hk]
      exact hid
    · cases hid

/-- C14 on a store of one buffer: loading `[1,2,0,0]` with `trim` returns handle 1 and
stores the buffer with sample count 2. -/
theorem load_appends_witness :
    ∃ st1, AUDIO_LoadWav ⟨[⟨22050, [5, 0, 3, 0], 4⟩], fun _ => Channel.init⟩
        (some ⟨11025, [1, 2, 0, 0], 8⟩) "" true = some (Except.ok (1, st1)) ∧
      st1.loadedWavs[1]? = some ⟨11025, [1, 2, 0, 0], 2⟩ ∧
      st1.loadedWavs[0]? = some ⟨22050, [5, 0, 3, 0], 4⟩ := by
  obtain ⟨m, st1, -, hm, hload, -, hnew, hold, -, -⟩ :=
    load_appends ⟨[⟨22050, [5, 0, 3, 0], 4⟩], fun _ => Channel.init⟩
      ⟨11025, [1, 2, 0, 0], 8⟩ "" true (by decide)
  have hm2 : m = 2 := by
    have h := hm rfl
    have h2 : trim_sample [1, 2, 0, 0] (8 / 2) = some 2 := by decide
    exact Option.some.inj (h.symm.trans h2)
  subst hm2
  exact ⟨st1, hload, hnew, hold 0 (by decide)⟩

/-- C15 (a failed load is atomic): the load throws exactly when `SDL_LoadWAV` produced no
buffer; the message then is `"SDL_LoadWav error: "` followed by the diagnostic string of
`SDL_GetError()`, no handle is returned, and the store and the channels are as before the
call. -/
theorem failed_load_is_atomic (st : State) (loaded : Option Wav) (err : String)
    (trim : Bool) :
    ((∃ msg st1, AUDIO_LoadWav_globals st loaded err trim = some (Except.error msg, st1))
      ↔ loaded = none) ∧
    ((∃ msg, AUDIO_LoadWav st loaded err trim = some (Except.error msg)) ↔ loaded = none) ∧
    AUDIO_LoadWav_globals st none err trim
      = some (Except.error ("SDL_LoadWav error: " ++ err), st) ∧
    AUDIO_LoadWav st none err trim = some (Except.error ("SDL_LoadWav error: " ++ err)) := by
  refine ⟨⟨?_, ?_⟩, ⟨?_, ?_⟩, rfl, rfl⟩
  · rintro ⟨msg, st1, h⟩
    cases loaded with
    | none => rfl
    | some wav0 =>
      exfalso
      unfold AUDIO_LoadWav_globals at h
      simp only at h
      cases trim with
      | false => simp at h
      | true =>
        simp only [if_true] at h
        cases ht : trim_sample wav0.sampleData (wav0.numSamples / 2) <;> simp [ht] at h
  · rintro rfl
    exact ⟨_, st, rfl⟩
  · rintro ⟨msg, h⟩
    cases loaded with
    | none => rfl
    | some wav0 =>
      exfalso
      unfold AUDIO_LoadWav at h
      simp only at h
      cases trim with
      | false => simp at h
      | true =>
        simp only [if_true] at h
        cases ht : trim_sample wav0.sampleData (wav0.numSamples / 2) <;> simp [ht] at h
  · rintro rfl
    exact ⟨_, rfl⟩

/-! ## Invariants of the reachable states -/

/-- A call of `getNextSample` changes at most the cursor and the `playing` flag. -/
theorem getNextSample_fields (c c1 : Channel) (s : Int) (h : getNextSample c = some (s, c1)) :
    c1.wav = c.wav ∧ c1.loop = c.loop ∧ c1.start = c.start ∧ c1.end_ = c.end_ ∧
      c1.loop_start = c.loop_start ∧ c1.loop_end = c.loop_end := by
  have hread : ∀ (d : Channel), readAndAdvance d = some (s, c1) →
      c1.wav = d.wav ∧ c1.loop = d.loop ∧ c1.start = d.start ∧ c1.end_ = d.end_ ∧
        c1.loop_start = d.loop_start ∧ c1.loop_end = d.loop_end := by
    intro d hd
    unfold readAndAdvance at hd
    cases hw : d.wav with
    | none => simp [hw] at hd
    | some w =>
      simp only [hw] at hd
      cases hs : w.sampleData[d.current]? with
      | none => simp [hs] at hd
      | some x =>
        simp only [hs, Option.some.injEq, Prod.mk.injEq] at hd
        obtain ⟨-, rfl⟩ := hd
        exact ⟨rfl, rfl, rfl, rfl, rfl, rfl⟩
  unfold getNextSample at h
  by_cases hp : c.playing = true
  · simp only [hp, Bool.not_true, Bool.false_eq_true, if_false] at h
    by_cases hb : c.current ≥ (if c.loop then c.loop_end else c.end_)
    · simp only [hb, if_true] at h
      by_cases hl : c.loop = true
      · simp only [hl, if_true] at h
        have h2 := hread _ h
        rw [hl]
        exact h2
      · have hl0 : c.loop = false := by simpa using hl
        simp only [hl0, Bool.false_eq_true, if_false, Option.some.injEq, Prod.mk.injEq] at h
        obtain ⟨-, rfl⟩ := h
        rw [hl0]
        exact ⟨rfl, rfl, rfl, rfl, rfl, rfl⟩
    · simp only [hb, if_false] at h
      exact hread _ h
  · simp only [Bool.not_eq_true] at hp
    simp only [hp, Bool.not_false, if_true, Option.some.injEq, Prod.mk.injEq] at h
    obtain ⟨-, rfl⟩ := h
    exact ⟨rfl, rfl, rfl, rfl, rfl, rfl⟩

/-- What one operation can do to a channel: nothing, a fresh full-buffer assignment, a
fresh assignment with a loop region, clearing `playing`, clearing `loop`, or one call of
`getNextSample`. -/
theorem step_channel_cases (oor : ℚ → Nat) (st st1 : State) (op : Op)
    (h : step oor st op = some st1) (j : Fin NUM_CHANNELS) :
    st1.channels j = st.channels j ∨
    (∃ w loop, st1.channels j = ⟨some w, 0, loop, true, 0, w.numSamples, 0, w.numSamples⟩) ∨
    (∃ id chan ls le w, op = Op.playRegion id chan ls le ∧ wavAt st id = some w ∧
      st1.channels j = ⟨some w, 0, true, true, 0, w.numSamples,
        min (pos2sample oor ls w.freq) w.numSamples,
        min (pos2sample oor le w.freq) w.numSamples⟩) ∨
    st1.channels j = { st.channels j with playing := false } ∨
    st1.channels j = { st.channels j with loop := false } ∨
    (∃ s, getNextSample (st.channels j) = some (s, st1.channels j)) := by
  cases op with
  | load loaded err trim =>
    left
    simp only [step, Option.map_eq_some'] at h
    obtain ⟨r, hr, rfl⟩ := h
    cases loaded with
    | none =>
      simp only [AUDIO_LoadWav_globals, Option.some.injEq] at hr
      rw [← hr]
    | some wav0 =>
      unfold AUDIO_LoadWav_globals at hr
      simp only at hr
      split at hr
      · cases hr
      · simp only [Option.some.injEq] at hr
        rw [← hr]
  | play id chan loop =>
    simp only [step] at h
    unfold AUDIO_Play at h
    split at h
    · rename_i w i hw hc
      simp only [Option.some.injEq] at h
      subst h
      by_cases hj : j = i
      · subst hj
        right; left
        exact ⟨w, loop, by rw [setChannel_same]⟩
      · left
        exact setChannel_other st i j _ hj
    · cases h
  | playRegion id chan ls le =>
    simp only [step] at h
    unfold AUDIO_Play_region at h
    split at h
    · rename_i w i hw hc
      simp only [Option.some.injEq] at h
      subst h
      by_cases hj : j = i
      · subst hj
        right; right; left
        exact ⟨id, chan, ls, le, w, rfl, hw, by rw [setChannel_same]⟩
      · left
        exact setChannel_other st i j _ hj
    · cases h
  | stop chan =>
    simp only [step] at h
    unfold AUDIO_Stop at h
    split at h
    · rename_i i hc
      simp only [Option.some.injEq] at h
      subst h
      by_cases hj : j = i
      · subst hj
        right; right; right; left
        rw [setChannel_same]
      · left
        exact setChannel_other st i j _ hj
    · cases h
  | stopLoop chan =>
    simp only [step] at h
    unfold AUDIO_StopLoop at h
    split at h
    · rename_i i hc
      simp only [Option.some.injEq] at h
      subst h
      by_cases hj : j = i
      · subst hj
        right; right; right; right; left
        rw [setChannel_same]
      · left
        exact setChannel_other st i j _ hj
    · cases h
  | advance chan =>
    simp only [step] at h
    split at h
    · cases h
    · rename_i i hc
      split at h
      · cases h
      · rename_i s c hg
        simp only [Option.some.injEq] at h
        subst h
        by_cases hj : j = i
        · subst hj
          right; right; right; right; right
          exact ⟨s, by rw [setChannel_same]; exact hg⟩
        · left
          exact setChannel_other st i j _ hj

/-- One operation keeps both loop bounds at most `end` on every channel. -/
theorem step_loop_bounds (oor : ℚ → Nat) (st st1 : State) (op : Op)
    (h : step oor st op = some st1)
    (hinv : ∀ j, (st.channels j).loop_start ≤ (st.channels j).end_ ∧
      (st.channels j).loop_end ≤ (st.channels j).end_) (j : Fin NUM_CHANNELS) :
    (st1.channels j).loop_start ≤ (st1.channels j).end_ ∧
      (st1.channels j).loop_end ≤ (st1.channels j).end_ := by
  rcases step_channel_cases oor st st1 op h j with
    e | ⟨w, loop, e⟩ | ⟨id, chan, ls, le, w, -, -, e⟩ | e | e | ⟨s, e⟩
  · rw [e]; exact hinv j
  · rw [e]; exact ⟨Nat.zero_le _, Nat.le_refl _⟩
  · rw [e]; exact ⟨Nat.min_le_right _ _, Nat.min_le_right _ _⟩
  · rw [e]; exact hinv j
  · rw [e]; exact hinv j
  · obtain ⟨-, -, -, h4, h5, h6⟩ := getNextSample_fields _ _ s e
    rw [h4, h5, h6]; exact hinv j

/-- One operation that gives its loop region in order keeps `loop_start ≤ loop_end` on
every channel. -/
theorem step_loop_ordered (oor : ℚ → Nat) (st st1 : State) (op : Op)
    (h : step oor st op = some st1) (hord : Op.ordered oor st op = true)
    (hinv : ∀ j, (st.channels j).loop_start ≤ (st.channels j).loop_end)
    (j : Fin NUM_CHANNELS) :
    (st1.channels j).loop_start ≤ (st1.channels j).loop_end := by
  rcases step_channel_cases oor st st1 op h j with
    e | ⟨w, loop, e⟩ | ⟨id, chan, ls, le, w, hop, hw, e⟩ | e | e | ⟨s, e⟩
  · rw [e]; exact hinv j
  · rw [e]; exact Nat.zero_le _
  · subst hop
    simp only [Op.ordered, hw, decide_eq_true_eq] at hord
    rw [e]
    show min (pos2sample oor ls w.freq) w.numSamples
      ≤ min (pos2sample oor le w.freq) w.numSamples
    omega
  · rw [e]; exact hinv j
  · rw [e]; exact hinv j
  · obtain ⟨-, -, -, -, h5, h6⟩ := getNextSample_fields _ _ s e
    rw [h5, h6]; exact hinv j

theorem run_loop_bounds (oor : ℚ → Nat) (ops : List Op) (st0 st : State)
    (h : run oor ops st0 = some st)
    (hinv : ∀ j, (st0.channels j).loop_start ≤ (st0.channels j).end_ ∧
      (st0.channels j).loop_end ≤ (st0.channels j).end_) :
    ∀ j, (st.channels j).loop_start ≤ (st.channels j).end_ ∧
      (st.channels j).loop_end ≤ (st.channels j).end_ := by
  induction ops generalizing st0 with
  | nil =>
    simp only [run, Option.some.injEq] at h
    subst h
    exact hinv
  | cons op ops ih =>
    simp only [run] at h
    cases hs : step oor st0 op with
    | none => simp [hs] at h
    | some st1 =>
      simp only [hs] at h
      exact ih st1 h (step_loop_bounds oor st0 st1 op hs hinv)

theorem run_loop_ordered (oor : ℚ → Nat) (ops : List Op) (st0 st : State)
    (h : run oor ops st0 = some st) (hord : orderedRun oor ops st0 = true)
    (hinv : ∀ j, (st0.channels j).loop_start ≤ (st0.channels j).loop_end) :
    ∀ j, (st.channels j).loop_start ≤ (st.channels j).loop_end := by
  induction ops generalizing st0 with
  | nil =>
    simp only [run, Option.some.injEq] at h
    subst h
    exact hinv
  | cons op ops ih =>
    simp only [run] at h
    cases hs : step oor st0 op with
    | none => simp [hs] at h
    | some st1 =>
      simp only [hs] at h
      simp only [orderedRun, hs, Bool.and_eq_true] at hord
      exact ih st1 h hord.2 (step_loop_ordered oor st0 st1 op hs hord.1 hinv)

/-- Running a sequence and then another is running the two in a row. -/
theorem run_append (oor : ℚ → Nat) (a b : List Op) (s0 s1 : State)
    (h : run oor a s0 = some s1) : run oor (a ++ b) s0 = run oor b s1 := by
  induction a generalizing s0 with
  | nil =>
    simp only [run, Option.some.injEq] at h
    subst h
    rfl
  | cons op a ih =>
    simp only [run, List.cons_append] at h ⊢
    cases hs : step oor s0 op with
    | none => simp [hs] at h
    | some s2 =>
      simp only [hs] at h ⊢
      exact ih s2 h

/-- At rate 128 a position is a sample index. -/
theorem pos2sample_rate128 (oor : ℚ → Nat) (pos : Int) (h0 : 0 ≤ pos)
    (h1 : pos < 4294967296) : pos2sample oor pos 128 = pos.toNat := by
  rw [pos2sample_of_inRange oor pos 128 h0 (by decide) (by omega)]
  congr 1
  omega

/-- Playing the loaded samples `[5,7]` (rate 128) on channel 0 with the loop positions `ls`
and `le`, both at most 2. -/
theorem step_playRegion_two (ls le : Int) (h0 : 0 ≤ ls) (h1 : ls ≤ 2) (h2 : 0 ≤ le)
    (h3 : le ≤ 2) :
    step (fun _ => 0) ⟨[⟨128, [5, 7], 2⟩], fun _ => Channel.init⟩ (Op.playRegion 0 0 ls le)
      = some (setChannel ⟨[⟨128, [5, 7], 2⟩], fun _ => Channel.init⟩ 0
          ⟨some ⟨128, [5, 7], 2⟩, 0, true, true, 0, 2, ls.toNat, le.toNat⟩) := by
  have h := AUDIO_Play_region_eq (fun _ => 0) ⟨[⟨128, [5, 7], 2⟩], fun _ => Channel.init⟩
    0 0 ls le ⟨128, [5, 7], 2⟩ 0 rfl rfl
  simp only [pos2sample_rate128 _ ls h0 (by omega), pos2sample_rate128 _ le h2 (by omega)] at h
  have m1 : min ls.toNat 2 = ls.toNat := by omega
  have m2 : min le.toNat 2 = le.toNat := by omega
  rw [m1, m2] at h
  exact h

/-- The state after loading the two samples `[5,7]` at rate 128 and playing them on
channel 0 with the loop positions `ls` and `le`, both at most 2. -/
theorem run_load_playRegion (ls le : Int) (h0 : 0 ≤ ls) (h1 : ls ≤ 2) (h2 : 0 ≤ le)
    (h3 : le ≤ 2) :
    run (fun _ => 0) [Op.load (some ⟨128, [5, 7], 4⟩) "" false, Op.playRegion 0 0 ls le]
        State.init
      = some (setChannel ⟨[⟨128, [5, 7], 2⟩], fun _ => Channel.init⟩ 0
          ⟨some ⟨128, [5, 7], 2⟩, 0, true, true, 0, 2, ls.toNat, le.toNat⟩) := by
  have hload : step (fun _ => 0) State.init (Op.load (some ⟨128, [5, 7], 4⟩) "" false)
      = some ⟨[⟨128, [5, 7], 2⟩], fun _ => Channel.init⟩ := rfl
  simp only [run, hload, step_playRegion_two ls le h0 h1 h2 h3]

/-- The same sequence gives its loop region in order when `ls ≤ le`. -/
theorem orderedRun_load_playRegion (ls le : Int) (h0 : 0 ≤ ls) (h1 : ls ≤ le)
    (h3 : le ≤ 2) :
    orderedRun (fun _ => 0)
      [Op.load (some ⟨128, [5, 7], 4⟩) "" false, Op.playRegion 0 0 ls le] State.init
      = true := by
  have hload : step (fun _ => 0) State.init (Op.load (some ⟨128, [5, 7], 4⟩) "" false)
      = some ⟨[⟨128, [5, 7], 2⟩], fun _ => Channel.init⟩ := rfl
  have hw : wavAt ⟨[⟨128, [5, 7], 2⟩], fun _ => Channel.init⟩ 0 = some ⟨128, [5, 7], 2⟩ := rfl
  have hord : Op.ordered (fun _ => 0) ⟨[⟨128, [5, 7], 2⟩], fun _ => Channel.init⟩
      (Op.playRegion 0 0 ls le) = true := by
    simp only [Op.ordered, hw, pos2sample_rate128 _ ls h0 (by omega),
      pos2sample_rate128 _ le (by omega) (by omega), decide_eq_true_eq]
    omega
  have hord0 : Op.ordered (fun _ => 0) State.init
      (Op.load (some ⟨128, [5, 7], 4⟩) "" false) = true := rfl
  simp only [orderedRun, hload, hord0, hord,
    step_playRegion_two ls le h0 (by omega) (by omega) h3, Bool.and_self]

/-- The claim C12 as written fails: after loading `[5,7]` at rate 128 and
`AUDIO_Play(0, 0, 1, 0)`, channel 0 has a sample assigned, `loop_start = 1` and
`loop_end = 0`. -/
theorem loop_region_out_of_order :
    ∃ st, run (fun _ => 0)
        [Op.load (some ⟨128, [5, 7], 4⟩) "" false, Op.playRegion 0 0 1 0] State.init
        = some st ∧
      (st.channels 0).wav = some ⟨128, [5, 7], 2⟩ ∧
      (st.channels 0).loop_start = 1 ∧ (st.channels 0).loop_end = 0 ∧
      ¬ (st.channels 0).loop_start ≤ (st.channels 0).loop_end :=
  ⟨_, run_load_playRegion 1 0 (by decide) (by decide) (by decide) (by decide), rfl, rfl, rfl,
    by decide⟩

/-- C12 as amended: in every state reached from program start by loads, plays, plays with a
loop region (any positions), stops, stopLoops and calls of `getNextSample`, every channel
(assigned a sample or not) has `loop_start ≤ end` and `loop_end ≤ end`; and it has
`loop_start ≤ loop_end` as well when every play with a loop region in the sequence gave
`pos2sample(loop_start, freq) ≤ pos2sample(loop_end, freq)`. -/
theorem loop_bounds_within_end (oor : ℚ → Nat) (ops : List Op) (st : State)
    (hrun : run oor ops State.init = some st) (j : Fin NUM_CHANNELS) :
    (st.channels j).loop_start ≤ (st.channels j).end_ ∧
    (st.channels j).loop_end ≤ (st.channels j).end_ ∧
    (orderedRun oor ops State.init = true →
      (st.channels j).loop_start ≤ (st.channels j).loop_end) := by
  have hb := run_loop_bounds oor ops State.init st hrun
    (fun _ => ⟨Nat.le_refl _, Nat.le_refl _⟩) j
  exact ⟨hb.1, hb.2, fun hord =>
    run_loop_ordered oor ops State.init st hrun hord (fun _ => Nat.le_refl _) j⟩

/-- The amended C12 after loading `[5,7]` and `AUDIO_Play(0, 0, 1, 2)`, a region in
order: `loop_start = 1 ≤ loop_end = 2 ≤ end = 2`. -/
theorem loop_bounds_within_end_witness :
    ∃ st, run (fun _ => 0)
        [Op.load (some ⟨128, [5, 7], 4⟩) "" false, Op.playRegion 0 0 1 2] State.init
        = some st ∧
      (st.channels 0).loop_start ≤ (st.channels 0).end_ ∧
      (st.channels 0).loop_end ≤ (st.channels 0).end_ ∧
      (st.channels 0).loop_start ≤ (st.channels 0).loop_end :=
  have hrun := run_load_playRegion 1 2 (by decide) (by decide) (by decide) (by decide)
  have h := loop_bounds_within_end (fun _ => 0)
    [Op.load (some ⟨128, [5, 7], 4⟩) "" false, Op.playRegion 0 0 1 2] _ hrun 0
  ⟨_, hrun, h.1, h.2.1,
    h.2.2 (orderedRun_load_playRegion 1 2 (by decide) (by decide) (by decide))⟩

/-- The code at the failing input of C13: an all-zero buffer `[0,0]` loaded with `trim` has
`numSamples = 0`; played with `loop` on channel 0 it has `end = loop_end = 0`, and one call
of `getNextSample` wraps to `loop_start = 0`, reads `sampleData[0]` and returns with the
channel still playing and `current = 1`, past `end = 0`.  On a buffer `[5,7]` loaded
without `trim` and played with both loop positions at the end, the third call reads
`sampleData[2]`, outside the buffer. -/
theorem cursor_passes_end :
    (∃ st, run (fun _ => 0)
        [Op.load (some ⟨22050, [0, 0], 4⟩) "" true, Op.play 0 0 true, Op.advance 0]
        State.init = some st ∧
      (st.channels 0).playing = true ∧ (st.channels 0).current = 1 ∧
      (st.channels 0).end_ = 0 ∧ ¬ (st.channels 0).current ≤ (st.channels 0).end_) ∧
    (∃ st, run (fun _ => 0)
        [Op.load (some ⟨128, [5, 7], 4⟩) "" false, Op.playRegion 0 0 2 2, Op.advance 0,
          Op.advance 0] State.init = some st ∧
      (st.channels 0).playing = true ∧ (st.channels 0).current = 2 ∧
      readIndex (st.channels 0) = some 2 ∧ getNextSample (st.channels 0) = none) := by
  constructor
  · exact ⟨_, rfl, rfl, rfl, rfl, by decide⟩
  · have h := run_load_playRegion 2 2 (by decide) (by decide) (by decide) (by decide)
    have h2 := run_append (fun _ => 0) _ [Op.advance 0, Op.advance 0] _ _ h
    refine ⟨_, h2.trans rfl, rfl, rfl, rfl, rfl⟩

end Audio
